import Mathlib

/-!
Verification of the GenAdvisor knowledge-graph RAG system.

This file shallowly embeds the knowledge-graph construction
(`_build_knowledge_graph`), entity extraction (`extract_entities`), query
classification (`classify_query`), graph querying (`_graph_query`),
aggregate sentiment (`_calculate_aggregate_sentiment`) of
`advanced_rag_system.py`, and the recommendation scoring
(`_generate_recommendation`) and market-breadth access
(`_get_market_breadth`) of `investment_advisor_engine.py`.

Python floats are modelled as rationals, Python dicts as association lists
in insertion order, and the networkx undirected graph as an explicit node
and edge list.  An absent attribute is modelled as `Option.none`; for the
technical-overlay attributes, which the builder can store with the value
Python `None`, a nested option distinguishes an absent key from a key
holding `None`.
-/

abbrev Key := String

/-- Attribute bag of a networkx node as used by the repository: the
`type` discriminator plus every attribute any builder step may set.
An absent attribute is `none`.  For the fields written by the technical
overlay (`rsi`, `macd`, `sma_20`, `sma_50`) the key can also be present
with the value Python `None`; these are two-level options: `none` means
the key is absent, `some none` means the key holds `None`, and
`some (some q)` a number.  For the remaining attributes the builder
either omits the key or stores it with a value whose `None` case behaves
like the default, so a single `Option` suffices. -/
structure NodeData where
  type : String := ""
  name : Option String := none
  sector : Option String := none
  price : Option ℚ := none
  change_percent : Option ℚ := none
  volume : Option ℚ := none
  market_cap : Option ℚ := none
  pe_ratio : Option ℚ := none
  pb_ratio : Option ℚ := none
  dividend_yield : Option ℚ := none
  beta : Option ℚ := none
  fifty_two_week_high : Option ℚ := none
  fifty_two_week_low : Option ℚ := none
  open_ : Option ℚ := none
  high : Option ℚ := none
  low : Option ℚ := none
  close : Option ℚ := none
  rsi : Option (Option ℚ) := none
  macd : Option (Option ℚ) := none
  sma_20 : Option (Option ℚ) := none
  sma_50 : Option (Option ℚ) := none
  advances : Option ℤ := none
  declines : Option ℤ := none
  sentiment : Option String := none
  timestamp : Option String := none
  title : Option String := none
  date : Option String := none
  source : Option String := none
  level : Option String := none
deriving DecidableEq

/-- One undirected edge of the networkx graph, with its `relation`
attribute.  The graph never holds two edges over the same unordered
endpoint pair (networkx `Graph` semantics: re-adding overwrites). -/
structure Edge where
  u : Key
  v : Key
  relation : String
deriving DecidableEq

/-- The networkx `Graph`: nodes and edges in insertion order. -/
structure Graph where
  nodes : List (Key × NodeData) := []
  edges : List Edge := []
deriving DecidableEq

def Graph.hasNode (g : Graph) (k : Key) : Bool :=
  g.nodes.any (fun p => p.1 == k)

/-- Node attribute lookup, `knowledge_graph.nodes[k]`.  Call sites in the
source only access existing nodes; a default empty bag is returned
otherwise (its `type` is `""`, matching no `type` check). -/
def Graph.getNode (g : Graph) (k : Key) : NodeData :=
  ((g.nodes.find? (fun p => p.1 == k)).map (fun p => p.2)).getD {}

/-- networkx `add_node(k, **attrs)`: create the node or update the given
attributes of an existing node.  `upd` applies the keyword attributes. -/
def Graph.addNode (g : Graph) (k : Key) (upd : NodeData → NodeData) : Graph :=
  if g.hasNode k then
    { g with nodes := g.nodes.map (fun p => if p.1 == k then (p.1, upd p.2) else p) }
  else
    { g with nodes := g.nodes ++ [(k, upd {})] }

/-- Whether an edge joins `u` and `v` (in either orientation). -/
def edgeJoins (e : Edge) (u v : Key) : Bool :=
  (e.u == u && e.v == v) || (e.u == v && e.v == u)

def Graph.hasEdge (g : Graph) (u v : Key) : Bool :=
  g.edges.any (fun e => edgeJoins e u v)

/-- networkx auto-creates attributeless endpoints of `add_edge`. -/
def Graph.ensureNode (g : Graph) (k : Key) : Graph :=
  if g.hasNode k then g else { g with nodes := g.nodes ++ [(k, {})] }

/-- networkx `add_edge(u, v, relation=rel)`: add the edge, or overwrite the
`relation` attribute of the existing edge over the same endpoint pair. -/
def Graph.addEdge (g : Graph) (u v : Key) (rel : String) : Graph :=
  let g := (g.ensureNode u).ensureNode v
  if g.hasEdge u v then
    { g with edges := g.edges.map (fun e => if edgeJoins e u v then { e with relation := rel } else e) }
  else
    { g with edges := g.edges ++ [⟨u, v, rel⟩] }

/-- networkx `neighbors(k)` in adjacency insertion order. -/
def Graph.neighbors (g : Graph) (k : Key) : List Key :=
  g.edges.filterMap (fun e =>
    if e.u == k then some e.v else if e.v == k then some e.u else none)

/-- Character-list substring scan backing `strContains`.  An empty
pattern is contained in every string, as for Python `in`. -/
def charsContain : List Char → List Char → Bool
  | _, [] => true
  | [], _ :: _ => false
  | s@(_ :: rest), pat => pat.isPrefixOf s || charsContain rest pat

/-- Python `pat in s` substring containment. -/
def strContains (s pat : String) : Bool :=
  charsContain s.data pat.data

/-- Python `str.lower()` (over `Char.toLower`, adequate for the ASCII
tickers, sector names and keyword vocabularies of the repository). -/
def pyLower (s : String) : String :=
  ⟨s.data.map Char.toLower⟩

/-- Python `str.upper()`. -/
def pyUpper (s : String) : String :=
  ⟨s.data.map Char.toUpper⟩

/-- Accumulating whitespace splitter backing `pySplit`. -/
def splitWsAux : List Char → List Char → List String
  | [], acc => if acc.isEmpty then [] else [⟨acc.reverse⟩]
  | c :: cs, acc =>
    if c.isWhitespace then
      if acc.isEmpty then splitWsAux cs [] else ⟨acc.reverse⟩ :: splitWsAux cs []
    else splitWsAux cs (c :: acc)

/-- Python `str.split()`: split on whitespace, dropping empty pieces. -/
def pySplit (s : String) : List String :=
  splitWsAux s.data []

/-- Fuelled character-list replacement backing `pyReplace`. -/
def replaceAux : Nat → List Char → List Char → List Char → List Char
  | 0, s, _, _ => s
  | _ + 1, [], _, _ => []
  | fuel + 1, s@(c :: rest), pat, rep =>
    if pat.isEmpty then s
    else if pat.isPrefixOf s then rep ++ replaceAux fuel (s.drop pat.length) pat rep
    else c :: replaceAux fuel rest pat rep

/-- Python `s.replace(pat, rep)` (left-to-right, non-overlapping); the
call sites only use the nonempty patterns `".NS"` and `".BO"`. -/
def pyReplace (s pat rep : String) : String :=
  ⟨replaceAux s.data.length s.data pat.data rep.data⟩

/-- Python list-append guarded by a membership check
(`if node not in extracted[...]: append`). -/
def addIfAbsent (l : List String) (x : String) : List String :=
  if l.contains x then l else l ++ [x]

/-- Raw per-symbol record of the entity store (`file_data['stocks']`
values); every field may be absent. -/
structure StockRecord where
  name : Option String := none
  sector : Option String := none
  current_price : Option ℚ := none
  change_percent : Option ℚ := none
  volume : Option ℚ := none
  market_cap : Option ℚ := none
  pe_ratio : Option ℚ := none
  pb_ratio : Option ℚ := none
  dividend_yield : Option ℚ := none
  beta : Option ℚ := none
  fifty_two_week_high : Option ℚ := none
  fifty_two_week_low : Option ℚ := none
  open_ : Option ℚ := none
  high : Option ℚ := none
  low : Option ℚ := none
  close : Option ℚ := none
deriving DecidableEq

/-- `file_data['market_breadth']` record. -/
structure BreadthRecord where
  advances : Option ℤ := none
  declines : Option ℤ := none
  market_sentiment : Option String := none
  timestamp : Option String := none
deriving DecidableEq

/-- One entry of `file_data['technical_indicators']`; `macd_histogram`
models `indicators.get('macd', dict()).get('histogram')`. -/
structure TechRecord where
  rsi : Option ℚ := none
  macd_histogram : Option ℚ := none
  sma_20 : Option ℚ := none
  sma_50 : Option ℚ := none
deriving DecidableEq

/-- One entry of `file_data['news_data']`. -/
structure NewsRecord where
  title : Option String := none
  sentiment : Option String := none
  date : Option String := none
  source : Option String := none
  content : Option String := none
deriving DecidableEq

/-- The entity-store snapshot `self.file_data`.  Dicts are association
lists in insertion order (Python dict keys are unique);
`market_breadth = none` models the falsy empty dict. -/
structure FileData where
  stocks : List (Key × StockRecord) := []
  market_breadth : Option BreadthRecord := none
  technical_indicators : List (Key × TechRecord) := []
  news_data : List NewsRecord := []
deriving DecidableEq

/-- One span returned by the external NER model. -/
structure NerEntity where
  word : String
  entity_group : String
deriving DecidableEq

/-- Result dictionary of `extract_entities`. -/
structure Extracted where
  companies : List Key := []
  sectors : List Key := []
  metrics : List String := []
  time_periods : List String := []
deriving DecidableEq

/-- Stopword set of `extract_entities` step 1. -/
def commonWords : List String :=
  ["the", "bank", "limited", "ltd", "corporation", "corp", "industries", "group"]

/-- Fixed metric vocabulary of `extract_entities` step 5. -/
def metricsVocab : List String :=
  ["pe", "pb", "roe", "debt", "margin", "growth", "dividend", "rsi", "macd", "price"]

/-- Python `node_data.get('name') or ''` followed by
`str(raw).lower() if raw else ''`. -/
def stockNameLower (name : Option String) : String :=
  match name with
  | some s => if s = "" then "" else pyLower s
  | none => ""

/-- Step 1 of `extract_entities`: direct ticker / company-name scan over
the stock nodes of the knowledge graph. -/
def extractStep1 (g : Graph) (query_lower query_upper : String) : List Key :=
  g.nodes.foldl (fun acc p =>
    if p.2.type == "stock" then
      let ticker_clean := pyUpper (pyReplace (pyReplace p.1 ".NS" "") ".BO" "")
      let acc :=
        if strContains query_upper ticker_clean || strContains query_upper p.1 then
          addIfAbsent acc p.1
        else acc
      let stock_name := stockNameLower p.2.name
      if stock_name ≠ "" then
        let name_words := (pySplit stock_name).dedup
        let query_words := (pySplit query_lower).dedup
        let significant_words := name_words.filter (fun w => ¬ commonWords.contains w)
        let query_significant := query_words.filter (fun w => ¬ commonWords.contains w)
        let acc :=
          if 2 ≤ (significant_words.filter (fun w => query_significant.contains w)).length then
            addIfAbsent acc p.1
          else acc
        if query_significant.any (fun w => 3 < w.length && strContains stock_name w) then
          addIfAbsent acc p.1
        else acc
      else acc
    else acc) []

/-- Step 2 of `extract_entities`: NER fallback, matching organization spans
against stock nodes. -/
def extractStep2 (g : Graph) (ner_out : List NerEntity) : List Key :=
  let org_names := (ner_out.filter (fun e => e.entity_group == "ORG")).map (fun e => e.word)
  org_names.foldl (fun acc nm =>
    let name_lower := if nm = "" then "" else pyLower nm
    g.nodes.foldl (fun acc2 p =>
      if p.2.type == "stock" then
        let stock_name := stockNameLower p.2.name
        let ticker_clean := pyLower (pyReplace (pyReplace p.1 ".NS" "") ".BO" "")
        if name_lower == ticker_clean || strContains stock_name name_lower ||
            strContains name_lower stock_name ||
            (3 < name_lower.length && strContains ticker_clean name_lower) then
          addIfAbsent acc2 p.1
        else acc2
      else acc2) acc) []

/-- Step 3 of `extract_entities`: word-overlap scan of the raw stock
registry, bypassing the graph. -/
def extractStep3 (fd : FileData) (query_lower : String) : List Key :=
  fd.stocks.foldl (fun acc p =>
    let stock_name := stockNameLower p.2.name
    if stock_name ≠ "" then
      let query_words := (pySplit query_lower).dedup
      let name_words := (pySplit stock_name).dedup
      if 2 ≤ (query_words.filter (fun w => name_words.contains w)).length then
        addIfAbsent acc p.1
      else acc
    else acc) []

/-- Step 4 of `extract_entities`: substring match of sector node names. -/
def extractSectors (g : Graph) (query_lower : String) : List Key :=
  ((g.nodes.filter (fun p => p.2.type == "sector")).map (fun p => p.1)).foldl
    (fun acc sector =>
      if sector ≠ "" then
        if strContains query_lower (pyLower sector) && ¬ acc.contains sector then
          acc ++ [sector]
        else acc
      else acc) []

/-- `extract_entities` of `advanced_rag_system.py`: tiered company
resolution, independent sector matching, fixed metric vocabulary.  The
`time_periods` entry of the result dict is initialised empty and no code
path appends to it.  The external NER model is a parameter (`ner`); its
`try/except` guard is not modelled since `ner` is total. -/
def extract_entities (g : Graph) (fd : FileData) (ner : String → List NerEntity)
    (query : String) : Extracted :=
  let query_lower := pyLower query
  let query_upper := pyUpper query
  let companies1 := extractStep1 g query_lower query_upper
  let companies2 := if companies1.isEmpty then extractStep2 g (ner query) else companies1
  let companies3 := if companies2.isEmpty then extractStep3 fd query_lower else companies2
  { companies := companies3
    sectors := extractSectors g query_lower
    metrics := metricsVocab.filter (fun m => strContains query_lower m)
    time_periods := [] }

/-- Sector string of a stock record: `stock_data.get('sector', 'Unknown')`. -/
def secOf (sd : StockRecord) : String := sd.sector.getD "Unknown"

/-- Stock-node attribute bag built by `_build_knowledge_graph` for one
stock record.  Missing `current_price`, `change_percent`, `volume` and
`market_cap` default to `0` and a missing `beta` to `1.0`
(`stock_data.get(..., 0)` / `.get('beta', 1.0)`); the remaining numeric
fields use `.get(...)`, storing Python `None` (here `none`) when absent. -/
def stockNodeAttrs (ticker : Key) (sd : StockRecord) (nd : NodeData) : NodeData :=
  { nd with
    type := "stock"
    name := some (sd.name.getD ticker)
    sector := some (secOf sd)
    price := some (sd.current_price.getD 0)
    change_percent := some (sd.change_percent.getD 0)
    volume := some (sd.volume.getD 0)
    market_cap := some (sd.market_cap.getD 0)
    pe_ratio := sd.pe_ratio
    pb_ratio := sd.pb_ratio
    dividend_yield := sd.dividend_yield
    beta := some (sd.beta.getD 1)
    fifty_two_week_high := sd.fifty_two_week_high
    fifty_two_week_low := sd.fifty_two_week_low
    open_ := sd.open_
    high := sd.high
    low := sd.low
    close := sd.close }

/-- Sector-node creation guard of the stock loop
(`if not has_node(sector): add_node(sector, type='sector')`). -/
def Graph.ensureSectorNode (g : Graph) (sector : Key) : Graph :=
  if g.hasNode sector then g else g.addNode sector (fun nd => { nd with type := "sector" })

/-- Idempotent sector-to-index attachment of the stock loop
(`if not has_edge(sector, 'NIFTY50'): add_edge(..., relation='component_of')`). -/
def Graph.attachIndexEdge (g : Graph) (sector : Key) : Graph :=
  if g.hasEdge sector "NIFTY50" then g else g.addEdge sector "NIFTY50" "component_of"

/-- One iteration of the stock loop of `_build_knowledge_graph`: upsert the
stock node and, when the sector is known, create/attach its sector node
via `belongs_to` and idempotently attach the sector to NIFTY50. -/
def addStockStep (g : Graph) (ticker : Key) (sd : StockRecord) : Graph :=
  if secOf sd ≠ "Unknown" then
    ((((g.addNode ticker (stockNodeAttrs ticker sd)).ensureSectorNode
        (secOf sd)).addEdge ticker (secOf sd) "belongs_to").attachIndexEdge (secOf sd))
  else g.addNode ticker (stockNodeAttrs ticker sd)

/-- Market-breadth step of `_build_knowledge_graph`. -/
def addBreadthStep (g : Graph) (b : BreadthRecord) : Graph :=
  let g := g.addNode "market_breadth" (fun nd =>
    { nd with
      type := "market_indicator"
      advances := some (b.advances.getD 0)
      declines := some (b.declines.getD 0)
      sentiment := some (b.market_sentiment.getD "neutral")
      timestamp := some (b.timestamp.getD "") })
  (g.addEdge "market_breadth" "NIFTY50" "indicates").addEdge "market_breadth" "SENSEX" "indicates"

/-- Technical-indicator overlay of `_build_knowledge_graph`
(`nx.set_node_attributes`, a no-op for absent stock nodes). -/
def addTechStep (g : Graph) (ticker : Key) (ind : TechRecord) : Graph :=
  if g.hasNode ticker then
    g.addNode ticker (fun nd =>
      { nd with rsi := some ind.rsi, macd := some ind.macd_histogram,
                sma_20 := some ind.sma_20, sma_50 := some ind.sma_50 })
  else g

/-- Node key of a news item: `f"news_{hash(title)}"`.  Python's randomized
string hash is a parameter `hashF`. -/
def newsKey (hashF : String → Int) (item : NewsRecord) : Key :=
  "news_" ++ toString (hashF (item.title.getD ""))

/-- News-node attribute bag built for one news item. -/
def newsNodeAttrs (item : NewsRecord) (nd : NodeData) : NodeData :=
  { nd with
    type := "news"
    title := some (item.title.getD "")
    sentiment := some (item.sentiment.getD "neutral")
    date := some (item.date.getD "")
    source := some (item.source.getD "") }

/-- Linking of one extracted entity to a news node: a `mentions` edge is
added only when the entity node already exists (dangling mentions are
dropped). -/
def addMentionEdge (news_id : Key) (g : Graph) (entity : Key) : Graph :=
  if g.hasNode entity then g.addEdge news_id entity "mentions" else g

/-- News step of `_build_knowledge_graph`: upsert the news node, run the
entity extractor on title plus content (against the graph holding the new
news node), and add a `mentions` edge to every resolved entity already
present in the graph. -/
def addNewsStep (hashF : String → Int) (ner : String → List NerEntity) (fd : FileData)
    (g : Graph) (item : NewsRecord) : Graph :=
  ((extract_entities (g.addNode (newsKey hashF item) (newsNodeAttrs item)) fd ner
        (item.title.getD "" ++ " " ++ item.content.getD "")).companies ++
      (extract_entities (g.addNode (newsKey hashF item) (newsNodeAttrs item)) fd ner
        (item.title.getD "" ++ " " ++ item.content.getD "")).sectors).foldl
    (addMentionEdge (newsKey hashF item))
    (g.addNode (newsKey hashF item) (newsNodeAttrs item))

/-- Stock-typed neighbors of a node, as enumerated by the peer-connection
pass (and by `_get_sector_performance`). -/
def stockNeighbors (g : Graph) (k : Key) : List Key :=
  (g.neighbors k).filter (fun n => (g.getNode n).type == "stock")

/-- `itertools.combinations(l, 2)`. -/
def pairsOf : List Key → List (Key × Key)
  | [] => []
  | x :: xs => xs.map (fun y => (x, y)) ++ pairsOf xs

/-- One pair of the peer-connection pass: add a `peer_of_sector` edge
unless some edge already joins the pair. -/
def peerPairStep (g : Graph) (p : Key × Key) : Graph :=
  if g.hasEdge p.1 p.2 then g else g.addEdge p.1 p.2 "peer_of_sector"

/-- Peer-connection pass for one sector: connect every unordered pair of
its stock neighbors. -/
def peerStep (g : Graph) (sector : Key) : Graph :=
  (pairsOf (stockNeighbors g sector)).foldl peerPairStep g

/-- Peer-connection pass of `_build_knowledge_graph`: the sector list is
materialised first, then each sector's stock neighbors are pairwise
connected. -/
def peerPass (g : Graph) : Graph :=
  (((g.nodes.filter (fun p => p.2.type == "sector")).map (fun p => p.1))).foldl peerStep g

/-- The cleared graph with the two fixed broad-market index nodes. -/
def initGraph : Graph :=
  (({} : Graph).addNode "NIFTY50"
      (fun nd => { nd with type := "index", level := some "broad_market" })).addNode "SENSEX"
    (fun nd => { nd with type := "index", level := some "broad_market" })

/-- Market-breadth stage: a no-op when `file_data['market_breadth']` is
falsy. -/
def breadthStage (mb : Option BreadthRecord) (g : Graph) : Graph :=
  match mb with
  | none => g
  | some b => addBreadthStep g b

/-- Stages 1-6 of `_build_knowledge_graph`: clear, add the two index
nodes, the stock loop, the market-breadth step, the technical-indicator
overlay and the news loop (everything before the peer-connection pass). -/
def buildPrePeer (hashF : String → Int) (ner : String → List NerEntity)
    (fd : FileData) : Graph :=
  fd.news_data.foldl (addNewsStep hashF ner fd)
    (fd.technical_indicators.foldl (fun g p => addTechStep g p.1 p.2)
      (breadthStage fd.market_breadth
        (fd.stocks.foldl (fun g p => addStockStep g p.1 p.2) initGraph)))

/-- `_build_knowledge_graph` of `advanced_rag_system.py`: the pre-peer
stages followed by the peer-connection pass. -/
def build_knowledge_graph (hashF : String → Int) (ner : String → List NerEntity)
    (fd : FileData) : Graph :=
  peerPass (buildPrePeer hashF ner fd)

/-- The fixed query-type enum `QueryType` of `advanced_rag_system.py`. -/
inductive QueryType where
  | stock_analysis
  | portfolio_advice
  | market_overview
  | sector_analysis
  | technical_analysis
  | fundamental_analysis
  | news_sentiment
  | risk_assessment
deriving DecidableEq

/-- Outcome of `classify_query`: a `QueryType`, or an uncaught Python
`AttributeError` raised by accessing a nonexistent enum member. -/
inductive ClassifyOutcome where
  | ok (t : QueryType)
  | attributeError (missingMember : String)
deriving DecidableEq

/-- Python `any(term in query_lower for term in terms)`. -/
def containsAny (s : String) (terms : List String) : Bool :=
  terms.any (fun t => strContains s t)

/-- `classify_query` of `advanced_rag_system.py`.  The sector branch
evaluates `QueryType.SECTOR_ANALISYS`, a member the `QueryType` enum does
not define (it defines `SECTOR_ANALYSIS`), which raises `AttributeError`
in Python; this is modelled as `ClassifyOutcome.attributeError`. -/
def classify_query (query : String) : ClassifyOutcome :=
  let query_lower := pyLower query
  if containsAny query_lower ["portfolio", "allocate", "diversify", "invest", "distribution", "budget"] then
    .ok .portfolio_advice
  else if containsAny query_lower ["stock", "share", "company", "analyze"] then
    .ok .stock_analysis
  else if containsAny query_lower ["market", "nifty", "sensex", "index"] then
    .ok .market_overview
  else if containsAny query_lower ["sector", "industry", "banking", "it", "pharma"] then
    .attributeError "SECTOR_ANALISYS"
  else if containsAny query_lower ["technical", "chart", "pattern", "indicator"] then
    .ok .technical_analysis
  else if containsAny query_lower ["fundamental", "earning", "valuation", "pe"] then
    .ok .fundamental_analysis
  else if containsAny query_lower ["news", "sentiment", "announcement"] then
    .ok .news_sentiment
  else if containsAny query_lower ["risk", "volatility", "var", "beta"] then
    .ok .risk_assessment
  else if containsAny query_lower ["invest", "budget"] then
    .ok .portfolio_advice
  else
    .ok .stock_analysis

/-- One entry of the list returned by `_graph_query`. -/
structure GraphResult where
  node : Key
  data : NodeData
  type : String
  relevance_score : ℚ
deriving DecidableEq

/-- Seed nodes of `_graph_query`: entity companies present in the graph,
then every sector node whose name contains an entity sector term
(case-insensitively). -/
def graphQueryStartNodes (g : Graph) (entities : Extracted) : List Key :=
  let start1 := entities.companies.filter (fun c => g.hasNode c)
  entities.sectors.foldl (fun acc sector_name =>
    if sector_name = "" then acc
    else
      let sector_name_lower := pyLower sector_name
      acc ++ ((g.nodes.filter (fun p =>
        p.2.type == "sector" && p.1 ≠ "" && strContains (pyLower p.1) sector_name_lower)).map
          (fun p => p.1))) start1

/-- State of the `_graph_query` traversal: emitted results and the
`seen_nodes` set (as a list). -/
abbrev QueryState := List GraphResult × List Key

/-- Second-hop emission of `_graph_query` (the loop over
`self.knowledge_graph.neighbors(neighbor)` for a sector reached from a
stock seed `node`): unseen stock neighbors other than the seed are
emitted as `peer_stock` at score 0.6. -/
def peerEmit (g : Graph) (node : Key) (st : QueryState) (sector_neighbor : Key) : QueryState :=
  if st.2.contains sector_neighbor || sector_neighbor == node then st
  else if (g.getNode sector_neighbor).type == "stock" then
    (st.1 ++ [⟨sector_neighbor, g.getNode sector_neighbor, "peer_stock", mkRat 3 5⟩],
      st.2 ++ [sector_neighbor])
  else st

/-- First-hop emission of `_graph_query` (the loop over
`self.knowledge_graph.neighbors(node)` for a seed of type `node_type`):
from a stock seed, news neighbors are emitted at 0.8 and sector
neighbors at 0.9 followed by the second hop; from a sector seed, stock
neighbors are emitted at 0.9. -/
def neighborEmit (g : Graph) (node : Key) (node_type : String)
    (st : QueryState) (neighbor : Key) : QueryState :=
  if st.2.contains neighbor then st
  else if node_type == "stock" then
    if (g.getNode neighbor).type == "news" then
      (st.1 ++ [⟨neighbor, g.getNode neighbor, "related_news", mkRat 4 5⟩], st.2 ++ [neighbor])
    else if (g.getNode neighbor).type == "sector" then
      (g.neighbors neighbor).foldl (peerEmit g node)
        (if st.2.contains neighbor then st
         else (st.1 ++ [⟨neighbor, g.getNode neighbor, "sector_info", mkRat 9 10⟩],
           st.2 ++ [neighbor]))
    else st
  else if node_type == "sector" then
    if (g.getNode neighbor).type == "stock" then
      if st.2.contains neighbor then st
      else (st.1 ++ [⟨neighbor, g.getNode neighbor, "sector_stock", mkRat 9 10⟩],
        st.2 ++ [neighbor])
    else st
  else st

/-- Emission of one seed node and its bounded two-hop expansion, exactly
as in the traversal loop of `_graph_query`: an unseen seed is emitted at
score 1.0 with type `<type>_info`, then its neighbors are expanded. -/
def visitSeed (g : Graph) (st : QueryState) (node : Key) : QueryState :=
  if st.2.contains node then st
  else
    (g.neighbors node).foldl (neighborEmit g node (g.getNode node).type)
      (st.1 ++ [⟨node, g.getNode node, (g.getNode node).type ++ "_info", 1⟩], st.2 ++ [node])

/-- Results emitted by `_graph_query` before deduplication: the
market-breadth entry (the `seen_nodes` set is empty at that check, so
only `has_node` matters), then the seed traversal. -/
def graphQueryRaw (g : Graph) (entities : Extracted) : List GraphResult :=
  let init : QueryState :=
    if g.hasNode "market_breadth" then
      ([⟨"market_breadth", g.getNode "market_breadth", "market_context", mkRat 7 10⟩], ["market_breadth"])
    else ([], [])
  ((graphQueryStartNodes g entities).foldl (visitSeed g) init).1

/-- The keep-first deduplication loop of `_graph_query`
(`final_results` / `final_seen`). -/
def dedupByNodeGo (seen : List Key) : List GraphResult → List GraphResult
  | [] => []
  | r :: rs =>
    if seen.contains r.node then dedupByNodeGo seen rs
    else r :: dedupByNodeGo (r.node :: seen) rs

def graphQueryDeduped (g : Graph) (entities : Extracted) : List GraphResult :=
  dedupByNodeGo [] (graphQueryRaw g entities)

/-- Stable insertion used to model Python's stable
`final_results.sort(key=lambda x: x.relevance_score, reverse=True)`:
an element passes over strictly greater scores and lands before every
equal-scored element inserted from further right. -/
def insertByScoreDesc (r : GraphResult) : List GraphResult → List GraphResult
  | [] => [r]
  | x :: xs =>
    if r.relevance_score < x.relevance_score then x :: insertByScoreDesc r xs
    else r :: x :: xs

/-- Stable descending sort by `relevance_score` (Python `list.sort` with
`reverse=True` is stable). -/
def sortByScoreDesc : List GraphResult → List GraphResult
  | [] => []
  | r :: rs => insertByScoreDesc r (sortByScoreDesc rs)

/-- `_graph_query` of `advanced_rag_system.py`: seeds, traversal,
keep-first deduplication by node key, stable descending sort by
`relevance_score`, truncation to 20.  The `query_type` parameter is
accepted and, as in the source body, unused; `max_depth` is likewise a
fixed unused default. -/
def graph_query (g : Graph) (query_type : QueryType) (entities : Extracted) : List GraphResult :=
  let _ := query_type
  (sortByScoreDesc (graphQueryDeduped g entities)).take 20

/-- `_convert_sentiment_to_score`: fixed label map, defaulting to 0. -/
def convert_sentiment_to_score (sentiment : String) : ℚ :=
  let s := pyLower sentiment
  if s == "very_positive" then 1
  else if s == "positive" then 1/2
  else if s == "neutral" then 0
  else if s == "negative" then -(1/2)
  else if s == "very_negative" then -1
  else 0

/-- RSI contribution of a stock-info result: `if 'rsi' in tech_data`
succeeds for an absent key (`none`: no contribution) only when the key
is there; when the key holds Python `None` (`some none`, as the
technical overlay stores for a missing indicator) `float(None)` raises
`TypeError` — the `none` outcome. -/
def rsiContribution : Option (Option ℚ) → Option (List (ℚ × ℚ))
  | none => some []
  | some none => none
  | some (some rsi) => some [((if 70 < rsi then -1 else if rsi < 30 then 1 else 0 : ℚ), 1/2)]

/-- MACD-sign contribution of a stock-info result, with the same
`float(None)` error outcome as `rsiContribution`. -/
def macdContribution : Option (Option ℚ) → Option (List (ℚ × ℚ))
  | none => some []
  | some none => none
  | some (some macd) => some [((if 0 < macd then 1 else if macd < 0 then -1 else 0 : ℚ), 1/2)]

/-- The `(sentiment, weight)` pairs one result appends to the parallel
`sentiments` / `weights` lists of `_calculate_aggregate_sentiment`:
news results contribute their converted sentiment at weight 0.7,
market-context results at weight 1.0, and stock-info results an
RSI-derived and a MACD-sign sentiment at weight 0.5 each; `none` is the
`TypeError` raised by `float(None)`. -/
def resultContribution (result : GraphResult) : Option (List (ℚ × ℚ)) :=
  if result.type == "news" then
    some [(convert_sentiment_to_score (result.data.sentiment.getD "neutral"), 7/10)]
  else if result.type == "market_context" then
    some [(convert_sentiment_to_score (result.data.sentiment.getD "neutral"), 1)]
  else if result.type == "stock_info" then
    match rsiContribution result.data.rsi, macdContribution result.data.macd with
    | some a, some b => some (a ++ b)
    | _, _ => none
  else some []

/-- The whole collection loop of `_calculate_aggregate_sentiment`:
`none` when any result raises (the exception aborts the loop and the
handler takes over — which results were already collected no longer
matters). -/
def collectContributions : List GraphResult → Option (List (ℚ × ℚ))
  | [] => some []
  | r :: rs =>
    match resultContribution r, collectContributions rs with
    | some c, some cs => some (c ++ cs)
    | _, _ => none

/-- `_calculate_aggregate_sentiment` of `advanced_rag_system.py`: the
weighted average of the collected sentiments, 0.0 when none were
collected, and 0.0 from the `except` handler when a `stock_info` result
carries `rsi` or `macd` set to `None`. -/
def calculate_aggregate_sentiment (graph_results : List GraphResult) : ℚ :=
  match collectContributions graph_results with
  | none => 0
  | some contribs =>
    if contribs.isEmpty then 0
    else ((contribs.map (fun p => p.1 * p.2)).sum) / ((contribs.map (fun p => p.2)).sum)

/-- The `RecommendationType` enum of `investment_advisor_engine.py`. -/
inductive RecommendationType where
  | buy
  | sell
  | hold
  | strong_buy
  | strong_sell
deriving DecidableEq

/-- Conversion of `technical_signals['signal']` to a score in
`_generate_recommendation`. -/
def techScoreOfSignal (signal : String) : ℚ :=
  if signal == "buy" then 1 else if signal == "sell" then -1 else 0

/-- The weighted score of `_generate_recommendation`: weights 0.3 / 0.25
/ 0.25 / 0.2 applied to `expected_return * 10`, the technical score,
`(fundamental_score - 0.5) * 2` and the sentiment score. -/
def recommendationScore (expected_return : ℚ) (signal : String)
    (fundamental_score sentiment_score : ℚ) : ℚ :=
  expected_return * 10 * (3/10) + techScoreOfSignal signal * (1/4) +
    (fundamental_score - 1/2) * 2 * (1/4) + sentiment_score * (1/5)

/-- `_generate_recommendation` of `investment_advisor_engine.py`. -/
def generate_recommendation (expected_return : ℚ) (signal : String)
    (fundamental_score sentiment_score : ℚ) : RecommendationType :=
  if 1/2 < recommendationScore expected_return signal fundamental_score sentiment_score then .strong_buy
  else if 1/5 < recommendationScore expected_return signal fundamental_score sentiment_score then .buy
  else if recommendationScore expected_return signal fundamental_score sentiment_score < -(1/2) then .strong_sell
  else if recommendationScore expected_return signal fundamental_score sentiment_score < -(1/5) then .sell
  else .hold

/-- Denominator of the advance/decline ratio in `_get_market_breadth`:
`max(node_data.get('declines', 1), 1)`. -/
def breadthDenominator (nd : NodeData) : ℤ :=
  max (nd.declines.getD 1) 1

/-- Return record of the knowledge-graph branch of `_get_market_breadth`. -/
structure BreadthOut where
  advances : ℤ
  declines : ℤ
  market_sentiment : String
  timestamp : String
  advance_decline_ratio : ℚ
deriving DecidableEq

/-- Knowledge-graph branch of `_get_market_breadth` of
`investment_advisor_engine.py`; `none` models falling through to the
out-of-scope file-based fallbacks. -/
def get_market_breadth (g : Graph) : Option BreadthOut :=
  if g.hasNode "market_breadth" then
    let node_data := g.getNode "market_breadth"
    if node_data.type == "market_indicator" then
      some
        { advances := node_data.advances.getD 0
          declines := node_data.declines.getD 0
          market_sentiment := node_data.sentiment.getD "neutral"
          timestamp := node_data.timestamp.getD ""
          advance_decline_ratio :=
            ((node_data.advances.getD 0 : ℤ) : ℚ) / ((breadthDenominator node_data : ℤ) : ℚ) }
    else none
  else none

/-! ## C9: `extract_entities` never fills `time_periods` -/

/-- C9: for every input string (and graph, entity store and NER model),
`extract_entities` returns a dictionary containing a `time_periods` key
whose value is the empty list: the initialisation writes `[]` and no code
path appends to it. -/
theorem extract_entities_time_periods_empty (g : Graph) (fd : FileData)
    (ner : String → List NerEntity) (query : String) :
    (extract_entities g fd ner query).time_periods = [] := rfl

/-! ## C5: `classify_query` on sector vocabulary raises `AttributeError` -/

/-- C5 (code bug): `classify_query "pharma"` reaches the sector branch,
which evaluates `QueryType.SECTOR_ANALISYS` — a member the enum does not
define (it defines `SECTOR_ANALYSIS`) — so the call raises
`AttributeError` instead of returning a member of the enum. -/
theorem classify_query_sector_attribute_error :
    classify_query "pharma" = ClassifyOutcome.attributeError "SECTOR_ANALISYS" := by decide

/-! ## C10: `_get_market_breadth` division safety -/

/-- C10: the advance/decline ratio of `_get_market_breadth` divides by
`max(node_data.get('declines', 1), 1)`, which is at least 1 (hence
nonzero) for every attribute bag of the `market_breadth` node, so the
ratio is a genuine quotient and the division never fails. -/
theorem market_breadth_denominator_safe (nd : NodeData) :
    1 ≤ breadthDenominator nd ∧ ((breadthDenominator nd : ℚ) ≠ 0) ∧
      ((nd.advances.getD 0 : ℤ) : ℚ) / ((breadthDenominator nd : ℤ) : ℚ) *
        ((breadthDenominator nd : ℤ) : ℚ) = ((nd.advances.getD 0 : ℤ) : ℚ) := by
  have h1 : 1 ≤ breadthDenominator nd := le_max_right _ _
  have h2 : ((breadthDenominator nd : ℤ) : ℚ) ≠ 0 := by
    exact_mod_cast Int.ne_of_gt (lt_of_lt_of_le Int.zero_lt_one h1)
  exact ⟨h1, h2, div_mul_cancel₀ _ h2⟩

/-! ## C6: missing numeric stock fields are defaulted, not omitted -/

/-- Entity store with a single stock record carrying no field at all. -/
def fdC6 : FileData := { stocks := [("X", {})] }

/-- C6 counterexample: building from a stock record with no numeric
fields stores fabricated defaults on the stock node — price,
change_percent, volume and market_cap become `0` and beta becomes `1.0` —
instead of omitting the attributes. -/
theorem stock_node_fabricated_defaults :
    let g := build_knowledge_graph (fun _ => 0) (fun _ => []) fdC6
    (g.getNode "X").price = some 0 ∧ (g.getNode "X").change_percent = some 0 ∧
      (g.getNode "X").volume = some 0 ∧ (g.getNode "X").market_cap = some 0 ∧
      (g.getNode "X").beta = some 1 := by decide

/-- C6 (amended): when a stock record lacks a numeric field, the stock
node keeps no numeric value only for `pe_ratio`, `pb_ratio`,
`dividend_yield`, the 52-week fields and OHLC (stored as Python `None`);
missing `current_price`, `change_percent`, `volume` and `market_cap` are
defaulted to `0` and a missing `beta` to `1.0`. -/
theorem stock_node_attrs_missing_fields (ticker : Key) (sd : StockRecord) (nd : NodeData)
    (hp : sd.current_price = none) (hc : sd.change_percent = none)
    (hv : sd.volume = none) (hm : sd.market_cap = none) (hb : sd.beta = none)
    (hpe : sd.pe_ratio = none) (hpb : sd.pb_ratio = none) (hdy : sd.dividend_yield = none)
    (hhi : sd.fifty_two_week_high = none) (hlo : sd.fifty_two_week_low = none) :
    (stockNodeAttrs ticker sd nd).price = some 0 ∧
      (stockNodeAttrs ticker sd nd).change_percent = some 0 ∧
      (stockNodeAttrs ticker sd nd).volume = some 0 ∧
      (stockNodeAttrs ticker sd nd).market_cap = some 0 ∧
      (stockNodeAttrs ticker sd nd).beta = some 1 ∧
      (stockNodeAttrs ticker sd nd).pe_ratio = none ∧
      (stockNodeAttrs ticker sd nd).pb_ratio = none ∧
      (stockNodeAttrs ticker sd nd).dividend_yield = none ∧
      (stockNodeAttrs ticker sd nd).fifty_two_week_high = none ∧
      (stockNodeAttrs ticker sd nd).fifty_two_week_low = none := by
  simp [stockNodeAttrs, hp, hc, hv, hm, hb, hpe, hpb, hdy, hhi, hlo]

/-- C6 witness: the amended statement applied to the empty stock record. -/
theorem stock_node_attrs_missing_fields_witness :
    (stockNodeAttrs "X" {} {}).price = some 0 ∧
      (stockNodeAttrs "X" {} {}).change_percent = some 0 ∧
      (stockNodeAttrs "X" {} {}).volume = some 0 ∧
      (stockNodeAttrs "X" {} {}).market_cap = some 0 ∧
      (stockNodeAttrs "X" {} {}).beta = some 1 ∧
      (stockNodeAttrs "X" {} {}).pe_ratio = none ∧
      (stockNodeAttrs "X" {} {}).pb_ratio = none ∧
      (stockNodeAttrs "X" {} {}).dividend_yield = none ∧
      (stockNodeAttrs "X" {} {}).fifty_two_week_high = none ∧
      (stockNodeAttrs "X" {} {}).fifty_two_week_low = none :=
  stock_node_attrs_missing_fields "X" {} {} rfl rfl rfl rfl rfl rfl rfl rfl rfl rfl

/-! ## C7: recommendation score formula and action thresholds -/

/-- C7 counterexample: the recommendation score is not the plain linear
combination `0.3·expected_return + 0.25·technical + 0.25·fundamental +
0.2·sentiment`: at `expected_return = 1`, signal `hold`,
`fundamental_score = 0.5`, `sentiment_score = 0` the code computes 3.0
(and returns `strong_buy`) while the claimed combination is 0.425. -/
theorem recommendation_score_not_plain_linear :
    recommendationScore 1 "hold" (1/2) 0 = 3 ∧
      recommendationScore 1 "hold" (1/2) 0 ≠
        (3/10) * 1 + (1/4) * techScoreOfSignal "hold" + (1/4) * (1/2) + (1/5) * 0 ∧
      generate_recommendation 1 "hold" (1/2) 0 = RecommendationType.strong_buy := by
  have hsig : techScoreOfSignal "hold" = 0 := by decide
  have hs : recommendationScore 1 "hold" (1/2) 0 = 3 := by
    norm_num [recommendationScore, hsig]
  refine ⟨hs, by rw [hs, hsig]; norm_num, ?_⟩
  unfold generate_recommendation
  rw [hs]
  norm_num

/-- C7 (amended): the recommendation score is the fixed weighting 0.3 /
0.25 / 0.25 / 0.2 applied to the rescaled inputs `expected_return * 10`,
the ±1 technical score, `(fundamental_score - 0.5) * 2` and the sentiment
score; the action is `strong_buy` iff the score exceeds 0.5, `buy` iff it
lies in (0.2, 0.5], `strong_sell` iff it is below −0.5, `sell` iff it
lies in [−0.5, −0.2), `hold` otherwise — always one of the five enum
values. -/
theorem generate_recommendation_spec (er f s : ℚ) (signal : String) :
    recommendationScore er signal f s
        = (3/10) * (er * 10) + (1/4) * techScoreOfSignal signal
            + (1/4) * ((f - 1/2) * 2) + (1/5) * s ∧
    (generate_recommendation er signal f s = .strong_buy ↔
        1/2 < recommendationScore er signal f s) ∧
    (generate_recommendation er signal f s = .buy ↔
        (1/5 < recommendationScore er signal f s ∧ recommendationScore er signal f s ≤ 1/2)) ∧
    (generate_recommendation er signal f s = .strong_sell ↔
        recommendationScore er signal f s < -(1/2)) ∧
    (generate_recommendation er signal f s = .sell ↔
        (-(1/2) ≤ recommendationScore er signal f s ∧
          recommendationScore er signal f s < -(1/5))) ∧
    (generate_recommendation er signal f s = .hold ↔
        (-(1/5) ≤ recommendationScore er signal f s ∧
          recommendationScore er signal f s ≤ 1/5)) ∧
    (generate_recommendation er signal f s = .strong_buy ∨
      generate_recommendation er signal f s = .buy ∨
      generate_recommendation er signal f s = .hold ∨
      generate_recommendation er signal f s = .sell ∨
      generate_recommendation er signal f s = .strong_sell) := by
  refine ⟨by unfold recommendationScore; ring, ?_⟩
  unfold generate_recommendation
  set x := recommendationScore er signal f s with hx
  split
  · rename_i h1
    exact ⟨iff_of_true rfl h1,
      iff_of_false (by decide) (by rintro ⟨_, hb⟩; linarith),
      iff_of_false (by decide) (by intro hb; linarith),
      iff_of_false (by decide) (by rintro ⟨_, hb⟩; linarith),
      iff_of_false (by decide) (by rintro ⟨_, hb⟩; linarith),
      Or.inl rfl⟩
  · rename_i h1
    push_neg at h1
    split
    · rename_i h2
      exact ⟨iff_of_false (by decide) (by intro hb; linarith),
        iff_of_true rfl ⟨h2, h1⟩,
        iff_of_false (by decide) (by intro hb; linarith),
        iff_of_false (by decide) (by rintro ⟨_, hb⟩; linarith),
        iff_of_false (by decide) (by rintro ⟨_, hb⟩; linarith),
        Or.inr (Or.inl rfl)⟩
    · rename_i h2
      push_neg at h2
      split
      · rename_i h3
        exact ⟨iff_of_false (by decide) (by intro hb; linarith),
          iff_of_false (by decide) (by rintro ⟨hb, _⟩; linarith),
          iff_of_true rfl h3,
          iff_of_false (by decide) (by rintro ⟨hb, _⟩; linarith),
          iff_of_false (by decide) (by rintro ⟨hb, _⟩; linarith),
          Or.inr (Or.inr (Or.inr (Or.inr rfl)))⟩
      · rename_i h3
        push_neg at h3
        split
        · rename_i h4
          exact ⟨iff_of_false (by decide) (by intro hb; linarith),
            iff_of_false (by decide) (by rintro ⟨hb, _⟩; linarith),
            iff_of_false (by decide) (by intro hb; linarith),
            iff_of_true rfl ⟨h3, h4⟩,
            iff_of_false (by decide) (by rintro ⟨hb, _⟩; linarith),
            Or.inr (Or.inr (Or.inr (Or.inl rfl)))⟩
        · rename_i h4
          push_neg at h4
          exact ⟨iff_of_false (by decide) (by intro hb; linarith),
            iff_of_false (by decide) (by rintro ⟨hb, _⟩; linarith),
            iff_of_false (by decide) (by intro hb; linarith),
            iff_of_false (by decide) (by rintro ⟨_, hb⟩; linarith),
            iff_of_true rfl ⟨h4, h2⟩,
            Or.inr (Or.inr (Or.inl rfl))⟩

/-! ## C8: aggregate sentiment, its weighted mean and its error path -/

theorem rsiContribution_weight_pos (x : Option (Option ℚ)) (l : List (ℚ × ℚ))
    (hl : rsiContribution x = some l) : ∀ p ∈ l, (0 : ℚ) < p.2 := by
  intro p hp
  rcases x with _ | _ | q
  · simp only [rsiContribution, Option.some.injEq] at hl
    rw [← hl] at hp
    simp at hp
  · simp [rsiContribution] at hl
  · simp only [rsiContribution, Option.some.injEq] at hl
    rw [← hl] at hp
    rcases List.mem_singleton.mp hp with rfl
    norm_num

theorem macdContribution_weight_pos (x : Option (Option ℚ)) (l : List (ℚ × ℚ))
    (hl : macdContribution x = some l) : ∀ p ∈ l, (0 : ℚ) < p.2 := by
  intro p hp
  rcases x with _ | _ | q
  · simp only [macdContribution, Option.some.injEq] at hl
    rw [← hl] at hp
    simp at hp
  · simp [macdContribution] at hl
  · simp only [macdContribution, Option.some.injEq] at hl
    rw [← hl] at hp
    rcases List.mem_singleton.mp hp with rfl
    norm_num

/-- Every contribution collected without an exception carries a strictly
positive weight (0.7 for news, 1.0 for market context, 0.5 for each
technical signal). -/
theorem resultContribution_weight_pos (r : GraphResult) (l : List (ℚ × ℚ))
    (hl : resultContribution r = some l) : ∀ p ∈ l, (0 : ℚ) < p.2 := by
  intro p hp
  unfold resultContribution at hl
  split at hl
  · rcases Option.some.injEq .. ▸ hl with rfl
    rcases List.mem_singleton.mp hp with rfl
    norm_num
  · split at hl
    · rcases Option.some.injEq .. ▸ hl with rfl
      rcases List.mem_singleton.mp hp with rfl
      norm_num
    · split at hl
      · rcases hr : rsiContribution r.data.rsi with _ | a
        · rw [hr] at hl
          simp at hl
        · rcases hm : macdContribution r.data.macd with _ | b
          · rw [hr, hm] at hl
            simp at hl
          · rw [hr, hm] at hl
            simp only [Option.some.injEq] at hl
            rw [← hl] at hp
            rcases List.mem_append.mp hp with hp | hp
            · exact rsiContribution_weight_pos _ a hr p hp
            · exact macdContribution_weight_pos _ b hm p hp
      · rcases Option.some.injEq .. ▸ hl with rfl
        simp at hp

theorem collectContributions_weight_pos :
    ∀ (results : List GraphResult) (contribs : List (ℚ × ℚ)),
      collectContributions results = some contribs → ∀ p ∈ contribs, (0 : ℚ) < p.2 := by
  intro results
  induction results with
  | nil =>
    intro contribs hc p hp
    simp only [collectContributions, Option.some.injEq] at hc
    rw [← hc] at hp
    simp at hp
  | cons r rs ih =>
    intro contribs hc p hp
    unfold collectContributions at hc
    rcases hr : resultContribution r with _ | c
    · rw [hr] at hc; simp at hc
    · rcases hrs : collectContributions rs with _ | cs
      · rw [hr, hrs] at hc; simp at hc
      · rw [hr, hrs] at hc
        simp only [Option.some.injEq] at hc
        rw [← hc] at hp
        rcases List.mem_append.mp hp with hp | hp
        · exact resultContribution_weight_pos r c hr p hp
        · exact ih cs hrs p hp

/-- C8 (amended): when every `stock_info` result's `rsi` / `macd`
attribute is either absent or a number, the aggregate sentiment equals
the weighted mean of the collected contributions — news at weight 0.7,
market context at weight 1.0, RSI-derived and MACD-sign technical
sentiments at weight 0.5 each — with a provably positive divisor; it is
exactly 0.0 when no contribution exists (in particular on the empty
list), and also 0.0 via the `except` handler when some `rsi` / `macd`
attribute is set to Python `None`, because `float(None)` raises
`TypeError` and aborts the whole computation. -/
theorem aggregate_sentiment_weighted_mean (results : List GraphResult) :
    calculate_aggregate_sentiment [] = 0 ∧
    (collectContributions results = none → calculate_aggregate_sentiment results = 0) ∧
    (∀ contribs : List (ℚ × ℚ), collectContributions results = some contribs →
      (contribs = [] → calculate_aggregate_sentiment results = 0) ∧
      (contribs ≠ [] →
        0 < (contribs.map (fun p => p.2)).sum ∧
        calculate_aggregate_sentiment results * (contribs.map (fun p => p.2)).sum
          = (contribs.map (fun p => p.1 * p.2)).sum)) := by
  refine ⟨rfl, ?_, ?_⟩
  · intro h
    unfold calculate_aggregate_sentiment
    rw [h]
  · intro contribs hc
    constructor
    · intro h
      unfold calculate_aggregate_sentiment
      rw [hc, h]
      rfl
    · intro h
      have hpos : 0 < (contribs.map (fun p => p.2)).sum := by
        apply List.sum_pos
        · intro x hx
          rcases List.mem_map.mp hx with ⟨p, hp, rfl⟩
          exact collectContributions_weight_pos results contribs hc p hp
        · intro hmap
          exact h (List.map_eq_nil_iff.mp hmap)
      refine ⟨hpos, ?_⟩
      unfold calculate_aggregate_sentiment
      rw [hc]
      dsimp only
      rw [if_neg (by simpa [List.isEmpty_iff] using h)]
      exact div_mul_cancel₀ _ (ne_of_gt hpos)

/-- Result list on which `_calculate_aggregate_sentiment` hits the
`float(None)` error path: one positive news item and one stock-info
result whose `rsi` attribute is present but set to Python `None` — as
the technical overlay stores whenever the indicator feed lacks `rsi`. -/
def sentimentNoneResults : List GraphResult :=
  [⟨"news_1", { sentiment := some "positive" }, "news", 1⟩,
   ⟨"S", { rsi := some none }, "stock_info", 1⟩]

/-- C8 counterexample: on `sentimentNoneResults` the code returns 0.0
for the entire list (the `TypeError` from `float(None)` is caught by the
`except` handler), whereas the weighted mean the claim describes — the
positive news contribution at weight 0.7 — is 0.5. -/
theorem aggregate_sentiment_none_counterexample :
    calculate_aggregate_sentiment sentimentNoneResults = 0 ∧
      (convert_sentiment_to_score "positive" * (7/10)) / ((7/10) : ℚ) = 1/2 ∧
      (0 : ℚ) ≠ 1/2 := by
  refine ⟨rfl, ?_, by norm_num⟩
  have h : convert_sentiment_to_score "positive" = 1/2 := rfl
  rw [h]
  norm_num

/-- Concrete result list exercising the weighted-mean branch. -/
def sentimentWitnessResults : List GraphResult :=
  [⟨"market_breadth", { sentiment := some "neutral" }, "market_context", 1⟩]

/-- C8 witness: the weighted-mean branch of the theorem at a one-element
result list. -/
theorem aggregate_sentiment_weighted_mean_witness :
    0 < (([((0 : ℚ), (1 : ℚ))]).map (fun p => p.2)).sum ∧
      calculate_aggregate_sentiment sentimentWitnessResults
          * (([((0 : ℚ), (1 : ℚ))]).map (fun p => p.2)).sum
        = (([((0 : ℚ), (1 : ℚ))]).map (fun p => p.1 * p.2)).sum :=
  ((aggregate_sentiment_weighted_mean sentimentWitnessResults).2.2
    [((0 : ℚ), (1 : ℚ))] (by decide)).2 (by decide)

/-! ## Sorting and deduplication lemmas for `_graph_query` -/

theorem insertByScoreDesc_perm (r : GraphResult) (l : List GraphResult) :
    (insertByScoreDesc r l).Perm (r :: l) := by
  induction l with
  | nil => simp [insertByScoreDesc]
  | cons x xs ih =>
    unfold insertByScoreDesc
    split
    · exact (ih.cons x).trans (List.Perm.swap r x xs)
    · exact List.Perm.refl _

theorem sortByScoreDesc_perm (l : List GraphResult) :
    (sortByScoreDesc l).Perm l := by
  induction l with
  | nil => exact List.Perm.refl _
  | cons r rs ih => exact (insertByScoreDesc_perm r (sortByScoreDesc rs)).trans (ih.cons r)

theorem insertByScoreDesc_pairwise (r : GraphResult) (l : List GraphResult)
    (h : l.Pairwise (fun a b => b.relevance_score ≤ a.relevance_score)) :
    (insertByScoreDesc r l).Pairwise (fun a b => b.relevance_score ≤ a.relevance_score) := by
  induction l with
  | nil => simp [insertByScoreDesc]
  | cons x xs ih =>
    rcases List.pairwise_cons.mp h with ⟨hx, hxs⟩
    unfold insertByScoreDesc
    split
    · rename_i hlt
      refine List.pairwise_cons.mpr ⟨?_, ih hxs⟩
      intro y hy
      rcases List.mem_cons.mp ((insertByScoreDesc_perm r xs).mem_iff.mp hy) with rfl | hy2
      · exact le_of_lt hlt
      · exact hx y hy2
    · rename_i hge
      refine List.pairwise_cons.mpr ⟨?_, h⟩
      intro y hy
      rcases List.mem_cons.mp hy with rfl | hy2
      · exact not_lt.mp hge
      · exact le_trans (hx y hy2) (not_lt.mp hge)

theorem sortByScoreDesc_pairwise (l : List GraphResult) :
    (sortByScoreDesc l).Pairwise (fun a b => b.relevance_score ≤ a.relevance_score) := by
  induction l with
  | nil => simp [sortByScoreDesc]
  | cons r rs ih => exact insertByScoreDesc_pairwise r (sortByScoreDesc rs) ih

theorem insertByScoreDesc_filter (r : GraphResult) (l : List GraphResult) (s : ℚ) :
    (insertByScoreDesc r l).filter (fun x => x.relevance_score == s)
      = (r :: l).filter (fun x => x.relevance_score == s) := by
  induction l with
  | nil => rfl
  | cons x xs ih =>
    unfold insertByScoreDesc
    split
    · rename_i hlt
      by_cases hr : r.relevance_score = s
      · by_cases hx : x.relevance_score = s
        · exact absurd (hx.trans hr.symm) (ne_of_gt hlt)
        · simp [List.filter_cons, hr, hx, ih]
      · by_cases hx : x.relevance_score = s
        · simp [List.filter_cons, hr, hx, ih]
        · simp [List.filter_cons, hr, hx, ih]
    · rfl

theorem sortByScoreDesc_filter (l : List GraphResult) (s : ℚ) :
    (sortByScoreDesc l).filter (fun x => x.relevance_score == s)
      = l.filter (fun x => x.relevance_score == s) := by
  induction l with
  | nil => rfl
  | cons r rs ih =>
    calc (insertByScoreDesc r (sortByScoreDesc rs)).filter (fun x => x.relevance_score == s)
        = (r :: sortByScoreDesc rs).filter (fun x => x.relevance_score == s) :=
          insertByScoreDesc_filter r (sortByScoreDesc rs) s
      _ = (r :: rs).filter (fun x => x.relevance_score == s) := by
          rw [List.filter_cons, List.filter_cons, ih]

theorem dedupByNodeGo_spec (l : List GraphResult) :
    ∀ seen : List Key,
      ((dedupByNodeGo seen l).map (fun r => r.node)).Nodup ∧
        ∀ r ∈ dedupByNodeGo seen l, ¬ (seen.contains r.node = true) := by
  induction l with
  | nil => intro seen; simp [dedupByNodeGo]
  | cons r rs ih =>
    intro seen
    unfold dedupByNodeGo
    split
    · rename_i hc
      exact ⟨(ih seen).1, fun x hx => (ih seen).2 x hx⟩
    · rename_i hc
      constructor
      · refine List.nodup_cons.mpr ⟨?_, (ih (r.node :: seen)).1⟩
        intro hmem
        rcases List.mem_map.mp hmem with ⟨x, hx, hnode⟩
        have := (ih (r.node :: seen)).2 x hx
        exact this (by simp [hnode])
      · intro x hx
        rcases List.mem_cons.mp hx with rfl | hx2
        · exact hc
        · intro hcon
          exact (ih (r.node :: seen)).2 x hx2 (by simp at hcon ⊢; exact Or.inr hcon)

theorem dedupByNodeGo_sublist (l : List GraphResult) :
    ∀ seen : List Key, (dedupByNodeGo seen l).Sublist l := by
  induction l with
  | nil => intro seen; simp [dedupByNodeGo]
  | cons r rs ih =>
    intro seen
    unfold dedupByNodeGo
    split
    · exact (ih seen).cons r
    · exact (ih (r.node :: seen)).cons₂ r

/-! ## C2: `_graph_query` caps at 20 and never duplicates node keys -/

/-- C2: for every graph, query type and extracted-entity set,
`_graph_query` returns at most 20 results, and no two results share a
node key (keep-first deduplication followed by a permutation sort and a
truncation). -/
theorem graph_query_capped_nodup (g : Graph) (qt : QueryType) (ents : Extracted) :
    (graph_query g qt ents).length ≤ 20 ∧
      ((graph_query g qt ents).map (fun r => r.node)).Nodup := by
  constructor
  · have : (graph_query g qt ents).length
        = min 20 (sortByScoreDesc (graphQueryDeduped g ents)).length := by
      simp [graph_query]
    omega
  · have hd : ((graphQueryDeduped g ents).map (fun r => r.node)).Nodup :=
      (dedupByNodeGo_spec (graphQueryRaw g ents) []).1
    have hperm := (sortByScoreDesc_perm (graphQueryDeduped g ents)).map (fun r => r.node)
    have hs : ((sortByScoreDesc (graphQueryDeduped g ents)).map (fun r => r.node)).Nodup :=
      hperm.nodup_iff.mpr hd
    have hsub : (((sortByScoreDesc (graphQueryDeduped g ents)).take 20).map
          (fun r => r.node)).Sublist
            ((sortByScoreDesc (graphQueryDeduped g ents)).map (fun r => r.node)) :=
      (List.take_sublist 20 _).map _
    exact List.Nodup.sublist hsub hs

/-! ## C4: `_graph_query` output is sorted, stably for ties -/

/-- C4: the list returned by `_graph_query` is non-increasing in
`relevance_score`; for every score value, the returned results with that
score are a prefix of the equal-scored deduplicated emissions (the sort
is stable for ties), and the deduplicated list is itself a sublist of
the raw emission list (keep-first), so ties appear in their original
emission order. -/
theorem graph_query_sorted_stable (g : Graph) (qt : QueryType) (ents : Extracted) :
    (graph_query g qt ents).Pairwise (fun a b => b.relevance_score ≤ a.relevance_score) ∧
      (∀ s : ℚ, (graph_query g qt ents).filter (fun r => r.relevance_score == s)
        <+: (graphQueryDeduped g ents).filter (fun r => r.relevance_score == s)) ∧
      (graphQueryDeduped g ents).Sublist (graphQueryRaw g ents) := by
  refine ⟨?_, ?_, dedupByNodeGo_sublist (graphQueryRaw g ents) []⟩
  · exact (sortByScoreDesc_pairwise (graphQueryDeduped g ents)).sublist (List.take_sublist 20 _)
  · intro s
    have h1 : (graph_query g qt ents).filter (fun r => r.relevance_score == s)
        <+: (sortByScoreDesc (graphQueryDeduped g ents)).filter (fun r => r.relevance_score == s) :=
      (List.take_prefix 20 _).filter _
    rw [sortByScoreDesc_filter] at h1
    exact h1

/-! ## C3: the market-breadth result and the top-20 truncation -/

theorem foldl_extend {α : Type} (f : QueryState → α → QueryState)
    (hf : ∀ st a, ∃ t, (f st a).1 = st.1 ++ t) :
    ∀ (l : List α) (st : QueryState), ∃ t, (l.foldl f st).1 = st.1 ++ t := by
  intro l
  induction l with
  | nil => exact fun st => ⟨[], by simp⟩
  | cons a as ih =>
    intro st
    obtain ⟨t1, ht1⟩ := hf st a
    obtain ⟨t2, ht2⟩ := ih (f st a)
    exact ⟨t1 ++ t2, by rw [List.foldl_cons, ht2, ht1, List.append_assoc]⟩

theorem peerEmit_extend (g : Graph) (node : Key) (st : QueryState) (sn : Key) :
    ∃ t, (peerEmit g node st sn).1 = st.1 ++ t := by
  unfold peerEmit
  split
  · exact ⟨[], by simp⟩
  · split
    · exact ⟨_, rfl⟩
    · exact ⟨[], by simp⟩

theorem neighborEmit_extend (g : Graph) (node : Key) (nt : String) (st : QueryState) (nb : Key) :
    ∃ t, (neighborEmit g node nt st nb).1 = st.1 ++ t := by
  unfold neighborEmit
  split
  · exact ⟨[], by simp⟩
  · split
    · split
      · exact ⟨_, rfl⟩
      · split
        · obtain ⟨t, ht⟩ := foldl_extend (peerEmit g node) (peerEmit_extend g node)
            (g.neighbors nb)
            (st.1 ++ [⟨nb, g.getNode nb, "sector_info", mkRat 9 10⟩], st.2 ++ [nb])
          exact ⟨[⟨nb, g.getNode nb, "sector_info", mkRat 9 10⟩] ++ t,
            by rw [ht, List.append_assoc]⟩
        · exact ⟨[], by simp⟩
    · split
      · split
        · exact ⟨_, rfl⟩
        · exact ⟨[], by simp⟩
      · exact ⟨[], by simp⟩

theorem visitSeed_extend (g : Graph) (st : QueryState) (node : Key) :
    ∃ t, (visitSeed g st node).1 = st.1 ++ t := by
  unfold visitSeed
  split
  · exact ⟨[], by simp⟩
  · obtain ⟨t, ht⟩ := foldl_extend (neighborEmit g node (g.getNode node).type)
      (neighborEmit_extend g node (g.getNode node).type) (g.neighbors node)
      (st.1 ++ [⟨node, g.getNode node, (g.getNode node).type ++ "_info", 1⟩], st.2 ++ [node])
    exact ⟨[⟨node, g.getNode node, (g.getNode node).type ++ "_info", 1⟩] ++ t,
      by rw [ht, List.append_assoc]⟩

/-- The market-breadth result of `_graph_query`. -/
def marketBreadthResult (g : Graph) : GraphResult :=
  ⟨"market_breadth", g.getNode "market_breadth", "market_context", mkRat 7 10⟩

theorem graphQueryRaw_breadth_head (g : Graph) (ents : Extracted)
    (h : g.hasNode "market_breadth" = true) :
    ∃ rest, graphQueryRaw g ents = marketBreadthResult g :: rest := by
  unfold graphQueryRaw
  rw [if_pos h]
  obtain ⟨t, ht⟩ := foldl_extend (visitSeed g) (visitSeed_extend g)
    (graphQueryStartNodes g ents) ([marketBreadthResult g], ["market_breadth"])
  exact ⟨t, ht⟩

theorem graphQueryDeduped_breadth_head (g : Graph) (ents : Extracted)
    (h : g.hasNode "market_breadth" = true) :
    ∃ rest, graphQueryDeduped g ents = marketBreadthResult g :: rest := by
  obtain ⟨rest, hraw⟩ := graphQueryRaw_breadth_head g ents h
  refine ⟨dedupByNodeGo ["market_breadth"] rest, ?_⟩
  unfold graphQueryDeduped
  rw [hraw]
  rfl

/-- C3 (amended): whenever the graph contains the `market_breadth` node,
`_graph_query` returns a result whose node is `market_breadth` with
relevance 0.7 and type `market_context`, provided fewer than 20
deduplicated results score strictly above 0.7 — otherwise the final
truncation to 20 results drops the entry. -/
theorem graph_query_market_breadth_included (g : Graph) (qt : QueryType) (ents : Extracted)
    (h : g.hasNode "market_breadth" = true)
    (hcount : (graphQueryDeduped g ents).countP
        (fun r => decide (mkRat 7 10 < r.relevance_score)) < 20) :
    ∃ r ∈ graph_query g qt ents,
      r.node = "market_breadth" ∧ r.type = "market_context" ∧
        r.relevance_score = mkRat 7 10 := by
  obtain ⟨rest, hded⟩ := graphQueryDeduped_breadth_head g ents h
  have hfil : (sortByScoreDesc (graphQueryDeduped g ents)).filter
      (fun r => r.relevance_score == mkRat 7 10)
      = marketBreadthResult g :: rest.filter (fun r => r.relevance_score == mkRat 7 10) := by
    rw [sortByScoreDesc_filter, hded, List.filter_cons]
    simp [marketBreadthResult]
  obtain ⟨P, Q, hsplit, hP, _, _⟩ := List.filter_eq_cons_iff.mp hfil
  have hsort := sortByScoreDesc_pairwise (graphQueryDeduped g ents)
  rw [hsplit] at hsort
  rcases List.pairwise_append.mp hsort with ⟨_, _, hPb⟩
  have hPgt : ∀ x ∈ P, decide (mkRat 7 10 < x.relevance_score) = true := by
    intro x hx
    have h1 : (marketBreadthResult g).relevance_score ≤ x.relevance_score :=
      hPb x hx (marketBreadthResult g) (List.mem_cons_self _ _)
    have h3 : x.relevance_score ≠ mkRat 7 10 := by simpa using hP x hx
    simpa using lt_of_le_of_ne h1 (Ne.symm h3)
  have hPlen : P.length ≤ (sortByScoreDesc (graphQueryDeduped g ents)).countP
      (fun r => decide (mkRat 7 10 < r.relevance_score)) := by
    rw [hsplit, List.countP_append]
    have : P.countP (fun r => decide (mkRat 7 10 < r.relevance_score)) = P.length :=
      List.countP_eq_length.mpr hPgt
    omega
  have hcnt : (sortByScoreDesc (graphQueryDeduped g ents)).countP
      (fun r => decide (mkRat 7 10 < r.relevance_score))
      = (graphQueryDeduped g ents).countP
          (fun r => decide (mkRat 7 10 < r.relevance_score)) :=
    (sortByScoreDesc_perm (graphQueryDeduped g ents)).countP_eq _
  have h20 : P.length < 20 := by omega
  have hb : marketBreadthResult g ∈ (sortByScoreDesc (graphQueryDeduped g ents)).take 20 := by
    rw [hsplit, List.take_append_eq_append_take]
    refine List.mem_append_right _ ?_
    have hk : 20 - P.length = (20 - P.length - 1) + 1 := by omega
    rw [hk, List.take_succ_cons]
    exact List.mem_cons_self _ _
  exact ⟨marketBreadthResult g, hb, rfl, rfl, rfl⟩

/-- Small entity store exercising the market-breadth guarantee. -/
def breadthWitnessFd : FileData :=
  { stocks := [("A", { sector := some "Energy" })], market_breadth := some {} }

def breadthWitnessGraph : Graph := build_knowledge_graph (fun _ => 0) (fun _ => []) breadthWitnessFd

/-- C3 witness: on a one-stock graph with a market-breadth node, the
query for company `A` returns the market-breadth entry. -/
theorem graph_query_market_breadth_included_witness :
    ∃ r ∈ graph_query breadthWitnessGraph QueryType.stock_analysis { companies := ["A"] },
      r.node = "market_breadth" ∧ r.type = "market_context" ∧
        r.relevance_score = mkRat 7 10 :=
  graph_query_market_breadth_included breadthWitnessGraph QueryType.stock_analysis
    { companies := ["A"] } (by decide) (by decide)

/-- Entity store with twenty sector-less stocks and a market-breadth
record. -/
def breadthCrowdFd : FileData :=
  { stocks := (List.range 20).map (fun i => (("S" ++ toString i : String), ({} : StockRecord)))
    market_breadth := some { advances := some 100, declines := some 50 } }

def breadthCrowdGraph : Graph := build_knowledge_graph (fun _ => 0) (fun _ => []) breadthCrowdFd

def breadthCrowdEntities : Extracted :=
  { companies := (List.range 20).map (fun i => ("S" ++ toString i : String)) }

/-- C3 counterexample: the graph contains the `market_breadth` node, the
query succeeds, yet no returned result is the market-breadth node — the
twenty seed results at score 1.0 crowd it out of the top-20 truncation. -/
theorem graph_query_market_breadth_truncated :
    breadthCrowdGraph.hasNode "market_breadth" = true ∧
      (graph_query breadthCrowdGraph QueryType.market_overview breadthCrowdEntities).all
        (fun r => r.node ≠ "market_breadth") = true := by decide

/-! ## C1: basic facts about the graph operations -/

theorem Graph.addNode_edges (g : Graph) (k : Key) (f : NodeData → NodeData) :
    (g.addNode k f).edges = g.edges := by
  unfold Graph.addNode; split <;> rfl

theorem Graph.ensureNode_edges (g : Graph) (k : Key) :
    (g.ensureNode k).edges = g.edges := by
  unfold Graph.ensureNode; split <;> rfl

theorem Graph.ensureNode_eq (g : Graph) (k : Key) (h : g.hasNode k = true) :
    g.ensureNode k = g := by
  unfold Graph.ensureNode; rw [if_pos h]

theorem Graph.hasNode_iff {g : Graph} {k : Key} :
    g.hasNode k = true ↔ ∃ nd, (k, nd) ∈ g.nodes := by
  unfold Graph.hasNode
  rw [List.any_eq_true]
  constructor
  · rintro ⟨p, hp, hpk⟩
    exact ⟨p.2, by rwa [show (k, p.2) = p from Prod.ext (Eq.symm (by simpa using hpk)) rfl]⟩
  · rintro ⟨nd, hnd⟩
    exact ⟨(k, nd), hnd, by simp⟩

theorem Graph.hasEdge_iff {g : Graph} {u v : Key} :
    g.hasEdge u v = true ↔ ∃ e ∈ g.edges, edgeJoins e u v = true := by
  unfold Graph.hasEdge
  exact List.any_eq_true

theorem edgeJoins_iff {e : Edge} {u v : Key} :
    edgeJoins e u v = true ↔ (e.u = u ∧ e.v = v) ∨ (e.u = v ∧ e.v = u) := by
  simp [edgeJoins]

theorem Graph.hasEdge_congr {g g' : Graph} (h : g'.edges = g.edges) (u v : Key) :
    g'.hasEdge u v = g.hasEdge u v := by
  unfold Graph.hasEdge; rw [h]

theorem Graph.getNode_congr {g g' : Graph} (h : g'.nodes = g.nodes) (k : Key) :
    g'.getNode k = g.getNode k := by
  unfold Graph.getNode; rw [h]

theorem Graph.getNode_mem {g : Graph} {k : Key} (h : (g.getNode k).type ≠ "") :
    (k, g.getNode k) ∈ g.nodes := by
  cases hf : g.nodes.find? (fun p => p.1 == k) with
  | none =>
    exfalso
    apply h
    unfold Graph.getNode
    rw [hf]
    rfl
  | some p =>
    have hp := List.mem_of_find?_eq_some hf
    have hpk : p.1 = k := by simpa using List.find?_some hf
    have hg : g.getNode k = p.2 := by unfold Graph.getNode; rw [hf]; rfl
    rw [hg, show (k, p.2) = p from Prod.ext hpk.symm rfl]
    exact hp

theorem Graph.addEdge_edges_append {g : Graph} {u v : Key} (rel : String)
    (h : g.hasEdge u v = false) :
    (g.addEdge u v rel).edges = g.edges ++ [⟨u, v, rel⟩] := by
  simp only [Graph.addEdge]
  have he : ((g.ensureNode u).ensureNode v).edges = g.edges := by
    rw [Graph.ensureNode_edges, Graph.ensureNode_edges]
  rw [Graph.hasEdge_congr he u v]
  rw [if_neg (by simp [h])]
  rw [he]

theorem Graph.addEdge_edges_relabel {g : Graph} {u v : Key} (rel : String)
    (h : g.hasEdge u v = true) :
    (g.addEdge u v rel).edges
      = g.edges.map (fun e => if edgeJoins e u v then { e with relation := rel } else e) := by
  simp only [Graph.addEdge]
  have he : ((g.ensureNode u).ensureNode v).edges = g.edges := by
    rw [Graph.ensureNode_edges, Graph.ensureNode_edges]
  rw [Graph.hasEdge_congr he u v, if_pos h, he]

theorem Graph.addEdge_nodes {g : Graph} {u v : Key} (rel : String)
    (hu : g.hasNode u = true) (hv : g.hasNode v = true) :
    (g.addEdge u v rel).nodes = g.nodes := by
  simp only [Graph.addEdge]
  rw [Graph.ensureNode_eq g u hu, Graph.ensureNode_eq g v hv]
  split <;> rfl

theorem Graph.mem_addNode {g : Graph} {k : Key} {f : NodeData → NodeData} {p : Key × NodeData}
    (hp : p ∈ (g.addNode k f).nodes) :
    p ∈ g.nodes ∨ (∃ nd, (k, nd) ∈ g.nodes ∧ p = (k, f nd)) ∨ p = (k, f {}) := by
  unfold Graph.addNode at hp
  split at hp
  · rcases List.mem_map.mp hp with ⟨q, hq, hpe⟩
    by_cases hk : q.1 = k
    · rw [if_pos (by simpa using hk)] at hpe
      exact Or.inr (Or.inl ⟨q.2, by rwa [show (k, q.2) = q from Prod.ext hk.symm rfl], by rw [← hpe, hk]⟩)
    · rw [if_neg (by simpa using hk)] at hpe
      exact Or.inl (hpe ▸ hq)
  · rcases List.mem_append.mp hp with h | h
    · exact Or.inl h
    · exact Or.inr (Or.inr (by simpa using h))

theorem Graph.addNode_keys_of_hasNode {g : Graph} {k : Key} (f : NodeData → NodeData)
    (h : g.hasNode k = true) :
    (g.addNode k f).nodes.map (fun p => p.1) = g.nodes.map (fun p => p.1) := by
  unfold Graph.addNode
  rw [if_pos h, List.map_map]
  refine List.map_congr_left ?_
  intro p _
  by_cases hk : p.1 = k
  · simp [hk]
  · simp [Function.comp, hk]

theorem Graph.addNode_keys_of_not_hasNode {g : Graph} {k : Key} (f : NodeData → NodeData)
    (h : ¬ g.hasNode k = true) :
    (g.addNode k f).nodes.map (fun p => p.1) = g.nodes.map (fun p => p.1) ++ [k] := by
  unfold Graph.addNode
  rw [if_neg (by simpa using h)]
  simp

theorem Graph.hasNode_iff_mem_keys {g : Graph} {k : Key} :
    g.hasNode k = true ↔ k ∈ g.nodes.map (fun p => p.1) := by
  rw [Graph.hasNode_iff]
  constructor
  · rintro ⟨nd, hnd⟩
    exact List.mem_map.mpr ⟨(k, nd), hnd, rfl⟩
  · intro hk
    rcases List.mem_map.mp hk with ⟨p, hp, hpk⟩
    exact ⟨p.2, by rwa [show (k, p.2) = p from Prod.ext hpk.symm rfl]⟩

theorem Graph.hasNode_addNode_self (g : Graph) (k : Key) (f : NodeData → NodeData) :
    (g.addNode k f).hasNode k = true := by
  rw [Graph.hasNode_iff_mem_keys]
  by_cases h : g.hasNode k = true
  · rw [Graph.addNode_keys_of_hasNode f h]
    exact Graph.hasNode_iff_mem_keys.mp h
  · rw [Graph.addNode_keys_of_not_hasNode f h]
    simp

theorem Graph.hasNode_addNode_mono {g : Graph} {k' : Key} (k : Key) (f : NodeData → NodeData)
    (h : g.hasNode k' = true) : (g.addNode k f).hasNode k' = true := by
  rw [Graph.hasNode_iff_mem_keys]
  by_cases hk : g.hasNode k = true
  · rw [Graph.addNode_keys_of_hasNode f hk]
    exact Graph.hasNode_iff_mem_keys.mp h
  · rw [Graph.addNode_keys_of_not_hasNode f hk]
    exact List.mem_append_left _ (Graph.hasNode_iff_mem_keys.mp h)

theorem Graph.hasNode_addEdge {g : Graph} {k u v : Key} (rel : String)
    (hu : g.hasNode u = true) (hv : g.hasNode v = true)
    (h : g.hasNode k = true) : (g.addEdge u v rel).hasNode k = true := by
  have hn := Graph.addEdge_nodes rel hu hv
  rw [Graph.hasNode_iff_mem_keys, hn]
  exact Graph.hasNode_iff_mem_keys.mp h

/-! ## C1: well-formedness of an entity store and edge-shape predicates -/

/-- Ticker keys of the entity store. -/
def tickersOf (fd : FileData) : List Key := fd.stocks.map (fun p => p.1)

/-- Sector names (other than `Unknown`) occurring in the entity store. -/
def sectorNamesOf (fd : FileData) : List Key :=
  fd.stocks.filterMap (fun p => if secOf p.2 = "Unknown" then none else some (secOf p.2))

/-- Number of `belongs_to` edges incident to a node. -/
def belongsToCount (g : Graph) (k : Key) : Nat :=
  (g.edges.filter (fun e => (e.u == k || e.v == k) && e.relation == "belongs_to")).length

/-- Whether an edge with the given relation joins `u` and `v`. -/
def edgeWithRel (g : Graph) (u v : Key) (rel : String) : Bool :=
  g.edges.any (fun e => edgeJoins e u v && e.relation == rel)

/-- Well-formedness of an entity-store snapshot: the name spaces of the
graph — tickers, sector names, the fixed keys `NIFTY50` / `SENSEX` /
`market_breadth`, and news keys — do not collide.  Real feeds satisfy
this; the claim fails without it (see the counterexample). -/
structure WellFormedFD (hashF : String → Int) (fd : FileData) : Prop where
  nodupTickers : (tickersOf fd).Nodup
  tickerNotSector : ∀ t ∈ tickersOf fd, t ∉ sectorNamesOf fd
  tickerNotSpecial : ∀ t ∈ tickersOf fd, t ≠ "NIFTY50" ∧ t ≠ "SENSEX" ∧ t ≠ "market_breadth"
  sectorNotSpecial : ∀ s ∈ sectorNamesOf fd, s ≠ "NIFTY50" ∧ s ≠ "SENSEX" ∧ s ≠ "market_breadth"
  newsFresh : ∀ item ∈ fd.news_data, newsKey hashF item ∉ tickersOf fd ∧
    newsKey hashF item ∉ sectorNamesOf fd ∧ newsKey hashF item ≠ "NIFTY50" ∧
    newsKey hashF item ≠ "SENSEX" ∧ newsKey hashF item ≠ "market_breadth"

/-- Shape of a `belongs_to` edge: a processed stock ticker joined to its
non-`Unknown` sector. -/
def edgeShapeA (stks : List (Key × StockRecord)) (e : Edge) : Prop :=
  ∃ p ∈ stks, e.u = p.1 ∧ e.v = secOf p.2 ∧ secOf p.2 ≠ "Unknown" ∧ e.relation = "belongs_to"

/-- Shape of a `component_of` edge: a sector joined to NIFTY50. -/
def edgeShapeB (fd : FileData) (e : Edge) : Prop :=
  e.u ∈ sectorNamesOf fd ∧ e.v = "NIFTY50" ∧ e.relation = "component_of"

/-- Shape of an `indicates` edge: market breadth joined to an index. -/
def edgeShapeC (e : Edge) : Prop :=
  e.u = "market_breadth" ∧ (e.v = "NIFTY50" ∨ e.v = "SENSEX") ∧ e.relation = "indicates"

/-- Shape of a `mentions` edge: a news key joined to some entity. -/
def edgeShapeD (hashF : String → Int) (fd : FileData) (e : Edge) : Prop :=
  (∃ item ∈ fd.news_data, e.u = newsKey hashF item) ∧ e.relation = "mentions"

/-- Stock-typed nodes are tickers and sector-typed nodes are sector
names. -/
def NodeTypeOK (fd : FileData) (g : Graph) : Prop :=
  ∀ p ∈ g.nodes, (p.2.type = "stock" → p.1 ∈ tickersOf fd) ∧
    (p.2.type = "sector" → p.1 ∈ sectorNamesOf fd)

/-- No two edges of the list join the same unordered endpoint pair
(networkx stores at most one edge per pair). -/
def edgesDistinct (g : Graph) : Prop :=
  g.edges.Pairwise (fun e1 e2 => edgeJoins e2 e1.u e1.v = false)

/-- Node keys are unique (networkx node dict). -/
def keysNodup (g : Graph) : Prop := (g.nodes.map (fun p => p.1)).Nodup

theorem mem_tickersOf {fd : FileData} {p : Key × StockRecord} (hp : p ∈ fd.stocks) :
    p.1 ∈ tickersOf fd := List.mem_map.mpr ⟨p, hp, rfl⟩

theorem mem_sectorNamesOf {fd : FileData} {p : Key × StockRecord} (hp : p ∈ fd.stocks)
    (h : secOf p.2 ≠ "Unknown") : secOf p.2 ∈ sectorNamesOf fd :=
  List.mem_filterMap.mpr ⟨p, hp, by rw [if_neg h]⟩

theorem stocks_key_inj {fd : FileData} (hnd : (tickersOf fd).Nodup)
    {p q : Key × StockRecord} (hp : p ∈ fd.stocks) (hq : q ∈ fd.stocks) (hk : p.1 = q.1) :
    p = q :=
  List.inj_on_of_nodup_map hnd hp hq hk

/-! ## C1: invariant preservation lemmas -/

theorem edgeJoins_false_iff {e : Edge} {u v : Key} :
    edgeJoins e u v = false ↔ ¬((e.u = u ∧ e.v = v) ∨ (e.u = v ∧ e.v = u)) := by
  rw [← edgeJoins_iff, Bool.eq_false_iff]

theorem NodeTypeOK_addNode {fd : FileData} {g : Graph} {k : Key} {f : NodeData → NodeData}
    (hN : NodeTypeOK fd g)
    (hf : ∀ nd : NodeData, ((f nd).type = "stock" → k ∈ tickersOf fd) ∧
      ((f nd).type = "sector" → k ∈ sectorNamesOf fd)) :
    NodeTypeOK fd (g.addNode k f) := by
  intro p hp
  rcases Graph.mem_addNode hp with h | ⟨nd, _, rfl⟩ | rfl
  · exact hN p h
  · exact hf nd
  · exact hf {}

theorem keysNodup_addNode {g : Graph} (k : Key) (f : NodeData → NodeData)
    (hK : keysNodup g) : keysNodup (g.addNode k f) := by
  by_cases h : g.hasNode k = true
  · unfold keysNodup
    rw [Graph.addNode_keys_of_hasNode f h]
    exact hK
  · unfold keysNodup
    rw [Graph.addNode_keys_of_not_hasNode f h]
    refine List.Nodup.append hK (List.nodup_singleton k) ?_
    intro a ha hb
    rcases List.mem_singleton.mp hb with rfl
    exact h (Graph.hasNode_iff_mem_keys.mpr ha)

theorem edgesDistinct_of_append {g g' : Graph} {u v : Key} {rel : String}
    (hD : edgesDistinct g) (h : g.hasEdge u v = false)
    (hg' : g'.edges = g.edges ++ [⟨u, v, rel⟩]) : edgesDistinct g' := by
  unfold edgesDistinct at hD ⊢
  rw [hg', List.pairwise_append]
  refine ⟨hD, List.pairwise_singleton _ _, ?_⟩
  intro a ha b hb
  rcases List.mem_singleton.mp hb with rfl
  have hae : edgeJoins a u v = false := by
    cases hja : edgeJoins a u v with
    | false => rfl
    | true => exact absurd (Graph.hasEdge_iff.mpr ⟨a, ha, hja⟩) (by simp [h])
  rw [edgeJoins_false_iff] at hae
  rw [edgeJoins_false_iff]
  rintro (⟨h1, h2⟩ | ⟨h1, h2⟩)
  · exact hae (Or.inl ⟨h1.symm, h2.symm⟩)
  · exact hae (Or.inr ⟨h2.symm, h1.symm⟩)

theorem edgesDistinct_of_relabel {g g' : Graph} {u v : Key} {rel : String}
    (hD : edgesDistinct g)
    (hg' : g'.edges = g.edges.map
      (fun e => if edgeJoins e u v then { e with relation := rel } else e)) :
    edgesDistinct g' := by
  unfold edgesDistinct at hD ⊢
  rw [hg']
  refine List.Pairwise.map _ ?_ hD
  intro a b hab
  have hbu : (if edgeJoins b u v then { b with relation := rel } else b).u = b.u := by
    split <;> rfl
  have hbv : (if edgeJoins b u v then { b with relation := rel } else b).v = b.v := by
    split <;> rfl
  have hau : (if edgeJoins a u v then { a with relation := rel } else a).u = a.u := by
    split <;> rfl
  have hav : (if edgeJoins a u v then { a with relation := rel } else a).v = a.v := by
    split <;> rfl
  rw [edgeJoins_false_iff] at hab ⊢
  rw [hbu, hbv, hau, hav]
  exact hab

/-- The stock-loop invariant: edge shapes A (over the processed prefix)
and B, node typing, edge-pair uniqueness, node-key uniqueness, and the
presence of the index nodes. -/
def StockLoopInv (fd : FileData) (done : List (Key × StockRecord)) (g : Graph) : Prop :=
  (∀ e ∈ g.edges, edgeShapeA done e ∨ edgeShapeB fd e) ∧
  NodeTypeOK fd g ∧ edgesDistinct g ∧ keysNodup g ∧
  g.hasNode "NIFTY50" = true ∧ g.hasNode "SENSEX" = true

theorem Graph.hasNode_congr {g g' : Graph} (h : g'.nodes = g.nodes) (k : Key) :
    g'.hasNode k = g.hasNode k := by
  unfold Graph.hasNode; rw [h]

theorem addStockStep_inv {hashF : String → Int} {fd : FileData}
    (hwf : WellFormedFD hashF fd) {done rest : List (Key × StockRecord)}
    {t : Key} {sd : StockRecord}
    (hsplit : fd.stocks = done ++ (t, sd) :: rest)
    {g : Graph} (hinv : StockLoopInv fd done g) :
    StockLoopInv fd (done ++ [(t, sd)]) (addStockStep g t sd) := by
  obtain ⟨hE, hN, hD, hK, hN50, hSX⟩ := hinv
  have hdone_sub : ∀ p ∈ done, p ∈ fd.stocks := fun p hp => by
    rw [hsplit]; exact List.mem_append_left _ hp
  have htmem : (t, sd) ∈ fd.stocks := by
    rw [hsplit]; exact List.mem_append_right _ (List.mem_cons_self _ _)
  have ht_tick : t ∈ tickersOf fd := mem_tickersOf htmem
  have ht_not_done : t ∉ done.map (fun p => p.1) := by
    have hnd := hwf.nodupTickers
    unfold tickersOf at hnd
    rw [hsplit, List.map_append] at hnd
    have hdisj := (List.nodup_append.mp hnd).2.2
    intro hmem
    exact hdisj hmem (by simp)
  have hA_mono : ∀ e, edgeShapeA done e → edgeShapeA (done ++ [(t, sd)]) e := by
    rintro e ⟨p, hp, h⟩; exact ⟨p, List.mem_append_left _ hp, h⟩
  unfold addStockStep
  by_cases hsec : secOf sd ≠ "Unknown"
  case neg =>
    rw [if_neg hsec]
    refine ⟨?_, ?_, ?_, ?_, ?_, ?_⟩
    · rw [Graph.addNode_edges]; exact fun e he => (hE e he).imp (hA_mono e) id
    · exact NodeTypeOK_addNode hN
        (fun nd => ⟨fun _ => ht_tick, fun hx => by simp [stockNodeAttrs] at hx⟩)
    · unfold edgesDistinct; rw [Graph.addNode_edges]; exact hD
    · exact keysNodup_addNode _ _ hK
    · exact Graph.hasNode_addNode_mono _ _ hN50
    · exact Graph.hasNode_addNode_mono _ _ hSX
  case pos =>
    rw [if_pos hsec]
    set g1 := g.addNode t (stockNodeAttrs t sd) with hg1def
    have hg1edges : g1.edges = g.edges := Graph.addNode_edges _ _ _
    have hN1 : NodeTypeOK fd g1 := NodeTypeOK_addNode hN
      (fun nd => ⟨fun _ => ht_tick, fun hx => by simp [stockNodeAttrs] at hx⟩)
    have hK1 : keysNodup g1 := keysNodup_addNode _ _ hK
    have hN50_1 : g1.hasNode "NIFTY50" = true := Graph.hasNode_addNode_mono _ _ hN50
    have hSX_1 : g1.hasNode "SENSEX" = true := Graph.hasNode_addNode_mono _ _ hSX
    have ht1 : g1.hasNode t = true := Graph.hasNode_addNode_self _ _ _
    have hsecname : secOf sd ∈ sectorNamesOf fd := mem_sectorNamesOf htmem hsec
    set g2 := g1.ensureSectorNode (secOf sd) with hg2def
    have hg2edges : g2.edges = g.edges := by
      rw [hg2def]; unfold Graph.ensureSectorNode; split
      · exact hg1edges
      · exact (Graph.addNode_edges _ _ _).trans hg1edges
    have hN2 : NodeTypeOK fd g2 := by
      rw [hg2def]; unfold Graph.ensureSectorNode; split
      · exact hN1
      · exact NodeTypeOK_addNode hN1 (fun nd => ⟨fun hx => by simp at hx, fun _ => hsecname⟩)
    have hK2 : keysNodup g2 := by
      rw [hg2def]; unfold Graph.ensureSectorNode; split
      · exact hK1
      · exact keysNodup_addNode _ _ hK1
    have hN50_2 : g2.hasNode "NIFTY50" = true := by
      rw [hg2def]; unfold Graph.ensureSectorNode; split
      · exact hN50_1
      · exact Graph.hasNode_addNode_mono _ _ hN50_1
    have hSX_2 : g2.hasNode "SENSEX" = true := by
      rw [hg2def]; unfold Graph.ensureSectorNode; split
      · exact hSX_1
      · exact Graph.hasNode_addNode_mono _ _ hSX_1
    have ht2 : g2.hasNode t = true := by
      rw [hg2def]; unfold Graph.ensureSectorNode; split
      · exact ht1
      · exact Graph.hasNode_addNode_mono _ _ ht1
    have hsec2 : g2.hasNode (secOf sd) = true := by
      rw [hg2def]; unfold Graph.ensureSectorNode; split
      · rename_i h; exact h
      · exact Graph.hasNode_addNode_self _ _ _
    have hnoedgeg : g.hasEdge t (secOf sd) = false := by
      cases hx : g.hasEdge t (secOf sd) with
      | false => rfl
      | true =>
        exfalso
        obtain ⟨e, he, hj⟩ := Graph.hasEdge_iff.mp hx
        rcases hE e he with ⟨p, hp, hu, hv, hne, _⟩ | ⟨hu, hv, _⟩
        · rcases edgeJoins_iff.mp hj with ⟨h1, h2⟩ | ⟨h1, h2⟩
          · exact ht_not_done (List.mem_map.mpr ⟨p, hp, by rw [← hu]; exact h1⟩)
          · refine hwf.tickerNotSector t ht_tick ?_
            rw [show t = secOf p.2 from (h2.symm.trans hv)]
            exact mem_sectorNamesOf (hdone_sub p hp) hne
        · rcases edgeJoins_iff.mp hj with ⟨h1, h2⟩ | ⟨h1, h2⟩
          · exact hwf.tickerNotSector t ht_tick (h1 ▸ hu)
          · exact (hwf.tickerNotSpecial t ht_tick).1 (h2.symm.trans hv)
    have hnoedge : g2.hasEdge t (secOf sd) = false := by
      rw [Graph.hasEdge_congr hg2edges]; exact hnoedgeg
    set g3 := g2.addEdge t (secOf sd) "belongs_to" with hg3def
    have hg3edges : g3.edges = g.edges ++ [⟨t, secOf sd, "belongs_to"⟩] := by
      rw [hg3def, Graph.addEdge_edges_append _ hnoedge, hg2edges]
    have hg3nodes : g3.nodes = g2.nodes := Graph.addEdge_nodes _ ht2 hsec2
    have hE3 : ∀ e ∈ g3.edges, edgeShapeA (done ++ [(t, sd)]) e ∨ edgeShapeB fd e := by
      intro e he
      rw [hg3edges] at he
      rcases List.mem_append.mp he with he | he
      · exact (hE e he).imp (hA_mono e) id
      · rcases List.mem_singleton.mp he with rfl
        exact Or.inl ⟨(t, sd), List.mem_append_right _ (by simp), rfl, rfl, hsec, rfl⟩
    have hD3 : edgesDistinct g3 := edgesDistinct_of_append hD hnoedgeg hg3edges
    have hN3 : NodeTypeOK fd g3 := fun p hp => hN2 p (hg3nodes ▸ hp)
    have hK3 : keysNodup g3 := by unfold keysNodup; rw [hg3nodes]; exact hK2
    have hN50_3 : g3.hasNode "NIFTY50" = true := by
      rw [Graph.hasNode_congr hg3nodes]; exact hN50_2
    have hSX_3 : g3.hasNode "SENSEX" = true := by
      rw [Graph.hasNode_congr hg3nodes]; exact hSX_2
    have hsec3 : g3.hasNode (secOf sd) = true := by
      rw [Graph.hasNode_congr hg3nodes]; exact hsec2
    unfold Graph.attachIndexEdge
    split
    · exact ⟨hE3, hN3, hD3, hK3, hN50_3, hSX_3⟩
    · rename_i hnoB
      have hnoB' : g3.hasEdge (secOf sd) "NIFTY50" = false := by
        cases hx : g3.hasEdge (secOf sd) "NIFTY50" with
        | false => rfl
        | true => exact absurd hx hnoB
      have hg4edges : (g3.addEdge (secOf sd) "NIFTY50" "component_of").edges
          = g3.edges ++ [⟨secOf sd, "NIFTY50", "component_of"⟩] :=
        Graph.addEdge_edges_append _ hnoB'
      have hg4nodes : (g3.addEdge (secOf sd) "NIFTY50" "component_of").nodes = g3.nodes :=
        Graph.addEdge_nodes _ hsec3 hN50_3
      refine ⟨?_, ?_, ?_, ?_, ?_, ?_⟩
      · intro e he
        rw [hg4edges] at he
        rcases List.mem_append.mp he with he | he
        · exact hE3 e he
        · rcases List.mem_singleton.mp he with rfl
          exact Or.inr ⟨hsecname, rfl, rfl⟩
      · exact fun p hp => hN3 p (hg4nodes ▸ hp)
      · exact edgesDistinct_of_append hD3 hnoB' hg4edges
      · unfold keysNodup; rw [hg4nodes]; exact hK3
      · rw [Graph.hasNode_congr hg4nodes]; exact hN50_3
      · rw [Graph.hasNode_congr hg4nodes]; exact hSX_3

theorem stock_fold_inv {hashF : String → Int} {fd : FileData} (hwf : WellFormedFD hashF fd) :
    ∀ (todo done : List (Key × StockRecord)) (g : Graph),
      fd.stocks = done ++ todo → StockLoopInv fd done g →
      StockLoopInv fd (done ++ todo) (todo.foldl (fun g p => addStockStep g p.1 p.2) g) := by
  intro todo
  induction todo with
  | nil => intro done g h hinv; simpa using hinv
  | cons p rest ih =>
    intro done g h hinv
    have hstep : StockLoopInv fd (done ++ [(p.1, p.2)]) (addStockStep g p.1 p.2) :=
      addStockStep_inv hwf (by rw [h]) hinv
    have hrec := ih (done ++ [(p.1, p.2)]) (addStockStep g p.1 p.2) (by rw [h]; simp) hstep
    simpa [List.append_assoc] using hrec

theorem initGraph_inv (fd : FileData) : StockLoopInv fd [] initGraph := by
  have hnodes : initGraph.nodes =
      [("NIFTY50", { type := "index", level := some "broad_market" }),
       ("SENSEX", { type := "index", level := some "broad_market" })] := rfl
  refine ⟨?_, ?_, ?_, ?_, ?_, ?_⟩
  · intro e he
    have hedges : initGraph.edges = [] := rfl
    rw [hedges] at he
    simp at he
  · intro p hp
    rw [hnodes] at hp
    rcases List.mem_cons.mp hp with rfl | hp
    · exact ⟨fun h => by simp at h, fun h => by simp at h⟩
    · rcases List.mem_cons.mp hp with rfl | hp
      · exact ⟨fun h => by simp at h, fun h => by simp at h⟩
      · simp at hp
  · unfold edgesDistinct
    have : initGraph.edges = [] := rfl
    rw [this]
    exact List.Pairwise.nil
  · unfold keysNodup
    rw [hnodes]
    decide
  · decide
  · decide

/-- Invariant after the stock loop and the remaining pre-peer stages:
every edge has one of the four shapes, node typing, edge-pair
uniqueness, node-key uniqueness. -/
def MidInv (hashF : String → Int) (fd : FileData) (g : Graph) : Prop :=
  (∀ e ∈ g.edges, edgeShapeA fd.stocks e ∨ edgeShapeB fd e ∨ edgeShapeC e ∨
    edgeShapeD hashF fd e) ∧
  NodeTypeOK fd g ∧ edgesDistinct g ∧ keysNodup g

theorem NodeTypeOK_addNode_preserving {fd : FileData} {g : Graph} {k : Key}
    {f : NodeData → NodeData} (hf : ∀ nd, (f nd).type = nd.type)
    (hN : NodeTypeOK fd g) : NodeTypeOK fd (g.addNode k f) := by
  intro p hp
  rcases Graph.mem_addNode hp with h | ⟨nd, hmem, rfl⟩ | rfl
  · exact hN p h
  · have := hN (k, nd) hmem
    exact ⟨fun hx => this.1 (by rwa [hf nd] at hx), fun hx => this.2 (by rwa [hf nd] at hx)⟩
  · have h0 : (f {}).type = "" := hf {}
    exact ⟨fun hx => absurd (h0.symm.trans hx) (by decide),
      fun hx => absurd (h0.symm.trans hx) (by decide)⟩

theorem breadthStage_inv {hashF : String → Int} {fd : FileData} (hwf : WellFormedFD hashF fd)
    (mb : Option BreadthRecord) {g : Graph} (hinv : StockLoopInv fd fd.stocks g) :
    MidInv hashF fd (breadthStage mb g) := by
  obtain ⟨hE, hN, hD, hK, hN50, hSX⟩ := hinv
  have hEw : ∀ e ∈ g.edges, edgeShapeA fd.stocks e ∨ edgeShapeB fd e ∨ edgeShapeC e ∨
      edgeShapeD hashF fd e := fun e he => (hE e he).imp id Or.inl
  cases mb with
  | none => exact ⟨hEw, hN, hD, hK⟩
  | some b =>
    show MidInv hashF fd (addBreadthStep g b)
    unfold addBreadthStep
    set gm := g.addNode "market_breadth" (fun nd =>
      { nd with
        type := "market_indicator"
        advances := some (b.advances.getD 0)
        declines := some (b.declines.getD 0)
        sentiment := some (b.market_sentiment.getD "neutral")
        timestamp := some (b.timestamp.getD "") }) with hgmdef
    have hgmedges : gm.edges = g.edges := Graph.addNode_edges _ _ _
    have hNm : NodeTypeOK fd gm := NodeTypeOK_addNode hN
      (fun nd => ⟨fun hx => by simp at hx, fun hx => by simp at hx⟩)
    have hKm : keysNodup gm := keysNodup_addNode _ _ hK
    have hmbm : gm.hasNode "market_breadth" = true := Graph.hasNode_addNode_self _ _ _
    have hN50m : gm.hasNode "NIFTY50" = true := Graph.hasNode_addNode_mono _ _ hN50
    have hSXm : gm.hasNode "SENSEX" = true := Graph.hasNode_addNode_mono _ _ hSX
    have hmb_not_tick : ∀ p ∈ fd.stocks, p.1 ≠ "market_breadth" := fun p hp =>
      (hwf.tickerNotSpecial p.1 (mem_tickersOf hp)).2.2
    have hno1 : gm.hasEdge "market_breadth" "NIFTY50" = false := by
      cases hx : gm.hasEdge "market_breadth" "NIFTY50" with
      | false => rfl
      | true =>
        exfalso
        obtain ⟨e, he, hj⟩ := Graph.hasEdge_iff.mp hx
        rw [hgmedges] at he
        rcases hE e he with ⟨p, hp, hu, hv, hne, _⟩ | ⟨hu, hv, _⟩
        · rcases edgeJoins_iff.mp hj with ⟨h1, h2⟩ | ⟨h1, h2⟩
          · exact hmb_not_tick p hp (hu.symm.trans h1)
          · exact (hwf.sectorNotSpecial (secOf p.2)
              (mem_sectorNamesOf hp hne)).2.2 (hv.symm.trans h2)
        · rcases edgeJoins_iff.mp hj with ⟨h1, h2⟩ | ⟨h1, h2⟩
          · exact (hwf.sectorNotSpecial e.u hu).2.2 h1
          · exact (hwf.sectorNotSpecial e.u hu).1 h1
    set g5 := gm.addEdge "market_breadth" "NIFTY50" "indicates" with hg5def
    have hg5edges : g5.edges = g.edges ++ [⟨"market_breadth", "NIFTY50", "indicates"⟩] := by
      rw [hg5def, Graph.addEdge_edges_append _ hno1, hgmedges]
    have hg5nodes : g5.nodes = gm.nodes := Graph.addEdge_nodes _ hmbm hN50m
    have hD5 : edgesDistinct g5 := edgesDistinct_of_append hD
      (by rw [← Graph.hasEdge_congr hgmedges]; exact hno1) hg5edges
    have hmb5 : g5.hasNode "market_breadth" = true := by
      rw [Graph.hasNode_congr hg5nodes]; exact hmbm
    have hSX5 : g5.hasNode "SENSEX" = true := by
      rw [Graph.hasNode_congr hg5nodes]; exact hSXm
    have hno2 : g5.hasEdge "market_breadth" "SENSEX" = false := by
      cases hx : g5.hasEdge "market_breadth" "SENSEX" with
      | false => rfl
      | true =>
        exfalso
        obtain ⟨e, he, hj⟩ := Graph.hasEdge_iff.mp hx
        rw [hg5edges] at he
        rcases List.mem_append.mp he with he | he
        · rcases hE e he with ⟨p, hp, hu, hv, hne, _⟩ | ⟨hu, hv, _⟩
          · rcases edgeJoins_iff.mp hj with ⟨h1, h2⟩ | ⟨h1, h2⟩
            · exact hmb_not_tick p hp (hu.symm.trans h1)
            · exact (hwf.sectorNotSpecial (secOf p.2)
                (mem_sectorNamesOf hp hne)).2.2 (hv.symm.trans h2)
          · rcases edgeJoins_iff.mp hj with ⟨h1, h2⟩ | ⟨h1, h2⟩
            · exact (hwf.sectorNotSpecial e.u hu).2.2 h1
            · exact absurd (hv.symm.trans h2) (by decide)
        · rcases List.mem_singleton.mp he with rfl
          rcases edgeJoins_iff.mp hj with ⟨_, h2⟩ | ⟨h1, _⟩
          · exact absurd h2 (by decide)
          · exact absurd h1 (by decide)
    have hg6edges : (g5.addEdge "market_breadth" "SENSEX" "indicates").edges
        = g5.edges ++ [⟨"market_breadth", "SENSEX", "indicates"⟩] :=
      Graph.addEdge_edges_append _ hno2
    have hg6nodes : (g5.addEdge "market_breadth" "SENSEX" "indicates").nodes = g5.nodes :=
      Graph.addEdge_nodes _ hmb5 hSX5
    refine ⟨?_, ?_, ?_, ?_⟩
    · intro e he
      rw [hg6edges, hg5edges] at he
      rcases List.mem_append.mp he with he | he
      · rcases List.mem_append.mp he with he | he
        · exact (hE e he).imp id Or.inl
        · rcases List.mem_singleton.mp he with rfl
          exact Or.inr (Or.inr (Or.inl ⟨rfl, Or.inl rfl, rfl⟩))
      · rcases List.mem_singleton.mp he with rfl
        exact Or.inr (Or.inr (Or.inl ⟨rfl, Or.inr rfl, rfl⟩))
    · intro p hp
      rw [hg6nodes, hg5nodes] at hp
      exact hNm p hp
    · exact edgesDistinct_of_append hD5 hno2 hg6edges
    · unfold keysNodup
      rw [hg6nodes, hg5nodes]
      exact hKm

theorem addTechStep_inv {hashF : String → Int} {fd : FileData} {g : Graph}
    (t : Key) (ind : TechRecord) (hinv : MidInv hashF fd g) :
    MidInv hashF fd (addTechStep g t ind) := by
  obtain ⟨hE, hN, hD, hK⟩ := hinv
  unfold addTechStep
  split
  · refine ⟨?_, ?_, ?_, ?_⟩
    · rw [Graph.addNode_edges]; exact hE
    · exact NodeTypeOK_addNode_preserving (fun nd => rfl) hN
    · unfold edgesDistinct; rw [Graph.addNode_edges]; exact hD
    · exact keysNodup_addNode _ _ hK
  · exact ⟨hE, hN, hD, hK⟩

theorem addMentionEdge_inv {hashF : String → Int} {fd : FileData} (hwf : WellFormedFD hashF fd)
    {item : NewsRecord} (hitem : item ∈ fd.news_data) {g : Graph} (entity : Key)
    (hinv : MidInv hashF fd g) (hnk : g.hasNode (newsKey hashF item) = true) :
    MidInv hashF fd (addMentionEdge (newsKey hashF item) g entity) ∧
      (addMentionEdge (newsKey hashF item) g entity).hasNode (newsKey hashF item) = true := by
  obtain ⟨hE, hN, hD, hK⟩ := hinv
  have hfresh := hwf.newsFresh item hitem
  unfold addMentionEdge
  split
  · rename_i hent
    by_cases hdup : g.hasEdge (newsKey hashF item) entity = true
    · have hedges := Graph.addEdge_edges_relabel "mentions" hdup
      have hnodes := Graph.addEdge_nodes "mentions" hnk hent
      refine ⟨⟨?_, ?_, ?_, ?_⟩, ?_⟩
      · intro e' he'
        rw [hedges] at he'
        rcases List.mem_map.mp he' with ⟨e, he, rfl⟩
        by_cases hj : edgeJoins e (newsKey hashF item) entity = true
        · rcases hE e he with ⟨p, hp, hu, hv, hne, _⟩ | ⟨hu, hv, _⟩ | ⟨hu, hv, _⟩ | hD4
          · exfalso
            rcases edgeJoins_iff.mp hj with ⟨h1, _⟩ | ⟨_, h2⟩
            · have hq : newsKey hashF item = p.1 := h1.symm.trans hu
              exact hfresh.1 (by rw [hq]; exact mem_tickersOf hp)
            · have hq : newsKey hashF item = secOf p.2 := h2.symm.trans hv
              exact hfresh.2.1 (by rw [hq]; exact mem_sectorNamesOf hp hne)
          · exfalso
            rcases edgeJoins_iff.mp hj with ⟨h1, _⟩ | ⟨_, h2⟩
            · exact hfresh.2.1 (h1 ▸ hu)
            · exact hfresh.2.2.1 (h2.symm.trans hv)
          · exfalso
            rcases edgeJoins_iff.mp hj with ⟨h1, _⟩ | ⟨_, h2⟩
            · exact hfresh.2.2.2.2 (h1.symm.trans hu)
            · rcases hv with hv | hv
              · exact hfresh.2.2.1 (h2.symm.trans hv)
              · exact hfresh.2.2.2.1 (h2.symm.trans hv)
          · have heq : ({ e with relation := "mentions" } : Edge) = e := by
              obtain ⟨-, hrel⟩ := hD4
              cases e
              simp_all
            rw [if_pos hj, heq]
            exact Or.inr (Or.inr (Or.inr hD4))
        · rw [if_neg hj]
          exact hE e he
      · exact fun p hp => hN p (hnodes ▸ hp)
      · exact edgesDistinct_of_relabel hD hedges
      · unfold keysNodup; rw [hnodes]; exact hK
      · rw [Graph.hasNode_congr hnodes]; exact hnk
    · have hdup' : g.hasEdge (newsKey hashF item) entity = false := by
        cases hx : g.hasEdge (newsKey hashF item) entity with
        | false => rfl
        | true => exact absurd hx hdup
      have hedges := Graph.addEdge_edges_append "mentions" hdup'
      have hnodes := Graph.addEdge_nodes "mentions" hnk hent
      refine ⟨⟨?_, ?_, ?_, ?_⟩, ?_⟩
      · intro e he
        rw [hedges] at he
        rcases List.mem_append.mp he with he | he
        · exact hE e he
        · rcases List.mem_singleton.mp he with rfl
          exact Or.inr (Or.inr (Or.inr ⟨⟨item, hitem, rfl⟩, rfl⟩))
      · exact fun p hp => hN p (hnodes ▸ hp)
      · exact edgesDistinct_of_append hD hdup' hedges
      · unfold keysNodup; rw [hnodes]; exact hK
      · rw [Graph.hasNode_congr hnodes]; exact hnk
  · exact ⟨⟨hE, hN, hD, hK⟩, hnk⟩

theorem mention_fold_inv {hashF : String → Int} {fd : FileData} (hwf : WellFormedFD hashF fd)
    {item : NewsRecord} (hitem : item ∈ fd.news_data) :
    ∀ (ents : List Key) (g : Graph),
      MidInv hashF fd g → g.hasNode (newsKey hashF item) = true →
      MidInv hashF fd (ents.foldl (addMentionEdge (newsKey hashF item)) g) := by
  intro ents
  induction ents with
  | nil => exact fun g hinv _ => hinv
  | cons e rest ih =>
    intro g hinv hnk
    obtain ⟨hinv', hnk'⟩ := addMentionEdge_inv hwf hitem e hinv hnk
    exact ih _ hinv' hnk'

theorem addNewsStep_inv {hashF : String → Int} {ner : String → List NerEntity} {fd : FileData}
    (hwf : WellFormedFD hashF fd) {item : NewsRecord} (hitem : item ∈ fd.news_data)
    {g : Graph} (hinv : MidInv hashF fd g) :
    MidInv hashF fd (addNewsStep hashF ner fd g item) := by
  obtain ⟨hE, hN, hD, hK⟩ := hinv
  unfold addNewsStep
  have hmid : MidInv hashF fd (g.addNode (newsKey hashF item) (newsNodeAttrs item)) := by
    refine ⟨?_, ?_, ?_, ?_⟩
    · rw [Graph.addNode_edges]; exact hE
    · exact NodeTypeOK_addNode hN
        (fun nd => ⟨fun hx => by simp [newsNodeAttrs] at hx, fun hx => by simp [newsNodeAttrs] at hx⟩)
    · unfold edgesDistinct; rw [Graph.addNode_edges]; exact hD
    · exact keysNodup_addNode _ _ hK
  exact mention_fold_inv hwf hitem _ _ hmid (Graph.hasNode_addNode_self _ _ _)

theorem news_fold_inv {hashF : String → Int} {ner : String → List NerEntity} {fd : FileData}
    (hwf : WellFormedFD hashF fd) :
    ∀ (items : List NewsRecord), (∀ i ∈ items, i ∈ fd.news_data) →
      ∀ g : Graph, MidInv hashF fd g →
        MidInv hashF fd (items.foldl (addNewsStep hashF ner fd) g) := by
  intro items
  induction items with
  | nil => exact fun _ g hinv => hinv
  | cons item rest ih =>
    intro hsub g hinv
    exact ih (fun i hi => hsub i (List.mem_cons_of_mem _ hi)) _
      (addNewsStep_inv hwf (hsub item (List.mem_cons_self _ _)) hinv)

theorem tech_fold_inv {hashF : String → Int} {fd : FileData} :
    ∀ (l : List (Key × TechRecord)) (g : Graph), MidInv hashF fd g →
      MidInv hashF fd (l.foldl (fun g p => addTechStep g p.1 p.2) g) := by
  intro l
  induction l with
  | nil => exact fun g hinv => hinv
  | cons p rest ih => exact fun g hinv => ih _ (addTechStep_inv p.1 p.2 hinv)

theorem buildPrePeer_inv {hashF : String → Int} {ner : String → List NerEntity} {fd : FileData}
    (hwf : WellFormedFD hashF fd) :
    MidInv hashF fd (buildPrePeer hashF ner fd) := by
  unfold buildPrePeer
  have h1 := stock_fold_inv hwf fd.stocks [] initGraph (by simp) (initGraph_inv fd)
  have h2 := breadthStage_inv hwf fd.market_breadth (by simpa using h1)
  have h3 := tech_fold_inv fd.technical_indicators _ h2
  exact news_fold_inv hwf fd.news_data (fun i hi => hi) _ h3

/-! ## C1: the peer-connection pass -/

/-- The pre-peer graph has no edge between two stock-typed nodes. -/
def NoStockStock (g0 : Graph) : Prop :=
  ∀ e ∈ g0.edges, ¬(((g0.getNode e.u).type = "stock") ∧ ((g0.getNode e.v).type = "stock"))

/-- The peer pass only appends `peer_of_sector` edges between stock-typed
nodes and never touches the node list. -/
def PeerExtends (g0 g : Graph) : Prop :=
  g.nodes = g0.nodes ∧
  ∃ added : List Edge, g.edges = g0.edges ++ added ∧
    ∀ e ∈ added, e.relation = "peer_of_sector" ∧
      (g0.getNode e.u).type = "stock" ∧ (g0.getNode e.v).type = "stock"

theorem peerExtends_refl (g0 : Graph) : PeerExtends g0 g0 :=
  ⟨rfl, [], by simp, by simp⟩

theorem Graph.hasNode_of_type {g : Graph} {k : Key} (h : (g.getNode k).type ≠ "") :
    g.hasNode k = true :=
  Graph.hasNode_iff.mpr ⟨_, Graph.getNode_mem h⟩

theorem peerPairStep_extends {g0 g : Graph} (hext : PeerExtends g0 g) {p : Key × Key}
    (hp1 : (g0.getNode p.1).type = "stock") (hp2 : (g0.getNode p.2).type = "stock") :
    PeerExtends g0 (peerPairStep g p) := by
  unfold peerPairStep
  split
  · exact hext
  · obtain ⟨hnodes, added, hedges, hadd⟩ := hext
    have hg1 : g.getNode p.1 = g0.getNode p.1 := Graph.getNode_congr hnodes p.1
    have hg2 : g.getNode p.2 = g0.getNode p.2 := Graph.getNode_congr hnodes p.2
    have hn1 : g.hasNode p.1 = true := Graph.hasNode_of_type (by rw [hg1, hp1]; decide)
    have hn2 : g.hasNode p.2 = true := Graph.hasNode_of_type (by rw [hg2, hp2]; decide)
    refine ⟨(Graph.addEdge_nodes _ hn1 hn2).trans hnodes, added ++ [⟨p.1, p.2, "peer_of_sector"⟩], ?_, ?_⟩
    · rename_i hno
      have hno' : g.hasEdge p.1 p.2 = false := by
        cases hx : g.hasEdge p.1 p.2 with
        | false => rfl
        | true => exact absurd hx hno
      rw [Graph.addEdge_edges_append _ hno', hedges, List.append_assoc]
    · intro e he
      rcases List.mem_append.mp he with he | he
      · exact hadd e he
      · rcases List.mem_singleton.mp he with rfl
        exact ⟨rfl, hp1, hp2⟩

theorem pairsOf_mem {l : List Key} {p : Key × Key} (hp : p ∈ pairsOf l) :
    p.1 ∈ l ∧ p.2 ∈ l := by
  induction l with
  | nil => simp [pairsOf] at hp
  | cons x xs ih =>
    unfold pairsOf at hp
    rcases List.mem_append.mp hp with hp | hp
    · rcases List.mem_map.mp hp with ⟨y, hy, rfl⟩
      exact ⟨List.mem_cons_self _ _, List.mem_cons_of_mem _ hy⟩
    · obtain ⟨h1, h2⟩ := ih hp
      exact ⟨List.mem_cons_of_mem _ h1, List.mem_cons_of_mem _ h2⟩

theorem pairsOf_cover {l : List Key} {a b : Key} (ha : a ∈ l) (hb : b ∈ l) (hab : a ≠ b) :
    (a, b) ∈ pairsOf l ∨ (b, a) ∈ pairsOf l := by
  induction l with
  | nil => simp at ha
  | cons x xs ih =>
    unfold pairsOf
    rcases List.mem_cons.mp ha with rfl | ha'
    · have hb' : b ∈ xs := by
        rcases List.mem_cons.mp hb with rfl | hb'
        · exact absurd rfl hab
        · exact hb'
      exact Or.inl (List.mem_append_left _ (List.mem_map.mpr ⟨b, hb', rfl⟩))
    · rcases List.mem_cons.mp hb with rfl | hb'
      · exact Or.inr (List.mem_append_left _ (List.mem_map.mpr ⟨a, ha', rfl⟩))
      · exact (ih ha' hb').imp (fun h => List.mem_append_right _ h)
          (fun h => List.mem_append_right _ h)

theorem stockNeighbors_stock_type {g : Graph} {sec n : Key}
    (hn : n ∈ stockNeighbors g sec) : (g.getNode n).type = "stock" := by
  unfold stockNeighbors at hn
  have := List.of_mem_filter hn
  simpa using this

theorem peer_pairs_fold_extends {g0 : Graph} :
    ∀ (ps : List (Key × Key)) (g : Graph), PeerExtends g0 g →
      (∀ p ∈ ps, (g0.getNode p.1).type = "stock" ∧ (g0.getNode p.2).type = "stock") →
      PeerExtends g0 (ps.foldl peerPairStep g) := by
  intro ps
  induction ps with
  | nil => exact fun g hext _ => hext
  | cons q qs ih =>
    intro g hext hty
    exact ih _ (peerPairStep_extends hext (hty q (List.mem_cons_self _ _)).1
        (hty q (List.mem_cons_self _ _)).2)
      (fun p hp => hty p (List.mem_cons_of_mem _ hp))

theorem peerStep_extends {g0 g : Graph} (hext : PeerExtends g0 g) (sector : Key) :
    PeerExtends g0 (peerStep g sector) := by
  unfold peerStep
  refine peer_pairs_fold_extends _ g hext ?_
  intro p hp
  obtain ⟨h1, h2⟩ := pairsOf_mem hp
  have t1 := stockNeighbors_stock_type h1
  have t2 := stockNeighbors_stock_type h2
  rw [Graph.getNode_congr hext.1] at t1 t2
  exact ⟨t1, t2⟩

theorem peer_sector_fold_extends {g0 : Graph} :
    ∀ (secs : List Key) (g : Graph), PeerExtends g0 g →
      PeerExtends g0 (secs.foldl peerStep g) := by
  intro secs
  induction secs with
  | nil => exact fun g hext => hext
  | cons c cs ih => exact fun g hext => ih _ (peerStep_extends hext c)

theorem peerPass_extends (g0 : Graph) : PeerExtends g0 (peerPass g0) :=
  peer_sector_fold_extends _ g0 (peerExtends_refl g0)

theorem peer_pairs_fold_edges :
    ∀ (ps : List (Key × Key)) (g : Graph),
      ∃ tail, (ps.foldl peerPairStep g).edges = g.edges ++ tail := by
  intro ps
  induction ps with
  | nil => exact fun g => ⟨[], by simp⟩
  | cons q qs ih =>
    intro g
    rw [List.foldl_cons]
    obtain ⟨t2, ht2⟩ := ih (peerPairStep g q)
    by_cases hq : g.hasEdge q.1 q.2 = true
    · have hid : peerPairStep g q = g := by unfold peerPairStep; rw [if_pos hq]
      rw [hid] at ht2
      exact ⟨t2, by rw [hid]; exact ht2⟩
    · have hno' : g.hasEdge q.1 q.2 = false := by
        cases hx : g.hasEdge q.1 q.2 with
        | false => rfl
        | true => exact absurd hx hq
      have hstep : (peerPairStep g q).edges = g.edges ++ [⟨q.1, q.2, "peer_of_sector"⟩] := by
        unfold peerPairStep
        rw [if_neg hq]
        exact Graph.addEdge_edges_append _ hno'
      exact ⟨[⟨q.1, q.2, "peer_of_sector"⟩] ++ t2, by rw [ht2, hstep, List.append_assoc]⟩

theorem peerStep_edges (g : Graph) (sector : Key) :
    ∃ tail, (peerStep g sector).edges = g.edges ++ tail :=
  peer_pairs_fold_edges _ g

theorem peer_sector_fold_edges :
    ∀ (secs : List Key) (g : Graph),
      ∃ tail, (secs.foldl peerStep g).edges = g.edges ++ tail := by
  intro secs
  induction secs with
  | nil => exact fun g => ⟨[], by simp⟩
  | cons c cs ih =>
    intro g
    rw [List.foldl_cons]
    obtain ⟨t1, ht1⟩ := peerStep_edges g c
    obtain ⟨t2, ht2⟩ := ih (peerStep g c)
    exact ⟨t1 ++ t2, by rw [ht2, ht1, List.append_assoc]⟩

theorem edgeWithRel_true_iff {g : Graph} {u v : Key} {rel : String} :
    edgeWithRel g u v rel = true ↔
      ∃ e ∈ g.edges, edgeJoins e u v = true ∧ e.relation = rel := by
  unfold edgeWithRel
  rw [List.any_eq_true]
  constructor
  · rintro ⟨e, he, hb⟩
    simp only [Bool.and_eq_true, beq_iff_eq] at hb
    exact ⟨e, he, hb.1, hb.2⟩
  · rintro ⟨e, he, h1, h2⟩
    refine ⟨e, he, ?_⟩
    simp only [Bool.and_eq_true, beq_iff_eq]
    exact ⟨h1, h2⟩

theorem edgeWithRel_mono {g g' : Graph} {u v : Key} {rel : String}
    (h : ∃ tail, g'.edges = g.edges ++ tail)
    (hw : edgeWithRel g u v rel = true) : edgeWithRel g' u v rel = true := by
  obtain ⟨tail, htail⟩ := h
  obtain ⟨e, he, h1, h2⟩ := edgeWithRel_true_iff.mp hw
  exact edgeWithRel_true_iff.mpr ⟨e, by rw [htail]; exact List.mem_append_left _ he, h1, h2⟩

theorem edgeWithRel_symm (g : Graph) (u v : Key) (rel : String)
    (h : edgeWithRel g u v rel = true) : edgeWithRel g v u rel = true := by
  obtain ⟨e, he, h1, h2⟩ := edgeWithRel_true_iff.mp h
  refine edgeWithRel_true_iff.mpr ⟨e, he, ?_, h2⟩
  rw [edgeJoins_iff] at h1 ⊢
  exact h1.symm

theorem stockNeighbors_stable {g0 g : Graph} {sec : Key}
    (hsec : (g0.getNode sec).type = "sector") (hext : PeerExtends g0 g) :
    stockNeighbors g sec = stockNeighbors g0 sec := by
  obtain ⟨hnodes, added, hedges, hadd⟩ := hext
  have hnb : g.neighbors sec = g0.neighbors sec := by
    unfold Graph.neighbors
    rw [hedges, List.filterMap_append]
    have : added.filterMap (fun e =>
        if e.u == sec then some e.v else if e.v == sec then some e.u else none) = [] := by
      rw [List.filterMap_eq_nil_iff]
      intro e he
      obtain ⟨-, hu, hv⟩ := hadd e he
      have hne1 : e.u ≠ sec := fun hcontra => by rw [hcontra, hsec] at hu; exact absurd hu (by decide)
      have hne2 : e.v ≠ sec := fun hcontra => by rw [hcontra, hsec] at hv; exact absurd hv (by decide)
      simp [hne1, hne2]
    rw [this, List.append_nil]
  unfold stockNeighbors
  rw [hnb]
  refine List.filter_congr ?_
  intro n _
  rw [Graph.getNode_congr hnodes]

theorem peer_pairs_fold_conn {g0 : Graph} (hss : NoStockStock g0) :
    ∀ (ps : List (Key × Key)) (g : Graph), PeerExtends g0 g →
      (∀ p ∈ ps, (g0.getNode p.1).type = "stock" ∧ (g0.getNode p.2).type = "stock") →
      ∀ p ∈ ps, edgeWithRel (ps.foldl peerPairStep g) p.1 p.2 "peer_of_sector" = true := by
  intro ps
  induction ps with
  | nil => intro g _ _ p hp; simp at hp
  | cons q qs ih =>
    intro g hext hty p hp
    rw [List.foldl_cons]
    have hqty := hty q (List.mem_cons_self _ _)
    have hq_conn : edgeWithRel (peerPairStep g q) q.1 q.2 "peer_of_sector" = true := by
      unfold peerPairStep
      split
      · rename_i hdup
        obtain ⟨e, he, hj⟩ := Graph.hasEdge_iff.mp hdup
        obtain ⟨hnodes, added, hedges, hadd⟩ := hext
        rw [hedges] at he
        rcases List.mem_append.mp he with he | he
        · exfalso
          refine hss e he ?_
          rcases edgeJoins_iff.mp hj with ⟨h1, h2⟩ | ⟨h1, h2⟩
          · exact ⟨by rw [h1]; exact hqty.1, by rw [h2]; exact hqty.2⟩
          · exact ⟨by rw [h1]; exact hqty.2, by rw [h2]; exact hqty.1⟩
        · exact edgeWithRel_true_iff.mpr
            ⟨e, by rw [hedges]; exact List.mem_append_right _ he, hj, (hadd e he).1⟩
      · rename_i hno
        have hno' : g.hasEdge q.1 q.2 = false := by
          cases hx : g.hasEdge q.1 q.2 with
          | false => rfl
          | true => exact absurd hx hno
        refine edgeWithRel_true_iff.mpr ⟨⟨q.1, q.2, "peer_of_sector"⟩, ?_, ?_, rfl⟩
        · rw [Graph.addEdge_edges_append _ hno']
          exact List.mem_append_right _ (List.mem_singleton.mpr rfl)
        · rw [edgeJoins_iff]
          exact Or.inl ⟨rfl, rfl⟩
    have hext1 : PeerExtends g0 (peerPairStep g q) :=
      peerPairStep_extends hext hqty.1 hqty.2
    rcases List.mem_cons.mp hp with rfl | hp'
    · obtain ⟨tail, htail⟩ := peer_pairs_fold_edges qs (peerPairStep g p)
      exact edgeWithRel_mono ⟨tail, htail⟩ hq_conn
    · exact ih (peerPairStep g q) hext1 (fun r hr => hty r (List.mem_cons_of_mem _ hr)) p hp'

theorem peerStep_conn {g0 g : Graph} (hss : NoStockStock g0) (hext : PeerExtends g0 g)
    {sec : Key} (hsec : (g0.getNode sec).type = "sector")
    {s₁ s₂ : Key} (h1 : s₁ ∈ stockNeighbors g0 sec) (h2 : s₂ ∈ stockNeighbors g0 sec)
    (hne : s₁ ≠ s₂) :
    edgeWithRel (peerStep g sec) s₁ s₂ "peer_of_sector" = true := by
  unfold peerStep
  have hstab : stockNeighbors g sec = stockNeighbors g0 sec := stockNeighbors_stable hsec hext
  have h1' : s₁ ∈ stockNeighbors g sec := by rw [hstab]; exact h1
  have h2' : s₂ ∈ stockNeighbors g sec := by rw [hstab]; exact h2
  have hty : ∀ p ∈ pairsOf (stockNeighbors g sec),
      (g0.getNode p.1).type = "stock" ∧ (g0.getNode p.2).type = "stock" := by
    intro p hp
    obtain ⟨hm1, hm2⟩ := pairsOf_mem hp
    have t1 := stockNeighbors_stock_type hm1
    have t2 := stockNeighbors_stock_type hm2
    rw [Graph.getNode_congr hext.1] at t1 t2
    exact ⟨t1, t2⟩
  rcases pairsOf_cover h1' h2' hne with hp | hp
  · exact peer_pairs_fold_conn hss _ g hext hty (s₁, s₂) hp
  · exact edgeWithRel_symm _ _ _ _ (peer_pairs_fold_conn hss _ g hext hty (s₂, s₁) hp)

theorem peer_fold_done {g0 : Graph} (hss : NoStockStock g0) :
    ∀ (secs : List Key) (g : Graph), PeerExtends g0 g →
      ∀ sec ∈ secs, (g0.getNode sec).type = "sector" →
      ∀ s₁ ∈ stockNeighbors g0 sec, ∀ s₂ ∈ stockNeighbors g0 sec, s₁ ≠ s₂ →
        edgeWithRel (secs.foldl peerStep g) s₁ s₂ "peer_of_sector" = true := by
  intro secs
  induction secs with
  | nil => intro g _ sec h; simp at h
  | cons c cs ih =>
    intro g hext sec hmem hsec s₁ h1 s₂ h2 hne
    rw [List.foldl_cons]
    rcases List.mem_cons.mp hmem with rfl | hmem'
    · obtain ⟨tail, htail⟩ := peer_sector_fold_edges cs (peerStep g sec)
      exact edgeWithRel_mono ⟨tail, htail⟩ (peerStep_conn hss hext hsec h1 h2 hne)
    · exact ih (peerStep g c) (peerStep_extends hext c) sec hmem' hsec s₁ h1 s₂ h2 hne

theorem stockTyped_mem_tickers {fd : FileData} {g : Graph} {k : Key}
    (hN : NodeTypeOK fd g) (h : (g.getNode k).type = "stock") : k ∈ tickersOf fd :=
  (hN (k, g.getNode k) (Graph.getNode_mem (by rw [h]; decide))).1 h

theorem noStockStock_of_mid {hashF : String → Int} {fd : FileData} {g0 : Graph}
    (hwf : WellFormedFD hashF fd) (hmid : MidInv hashF fd g0) : NoStockStock g0 := by
  rintro e he ⟨hu, hv⟩
  have hNt := hmid.2.1
  rcases hmid.1 e he with ⟨p, hp, hu', hv', hne, _⟩ | ⟨hu', hv', _⟩ | ⟨hu', _, _⟩ |
    ⟨⟨item, hitem, hu'⟩, _⟩
  · refine hwf.tickerNotSector e.v (stockTyped_mem_tickers hNt hv) ?_
    rw [hv']
    exact mem_sectorNamesOf hp hne
  · exact (hwf.tickerNotSpecial e.v (stockTyped_mem_tickers hNt hv)).1 hv'
  · exact (hwf.tickerNotSpecial e.u (stockTyped_mem_tickers hNt hu)).2.2 hu'
  · exact (hwf.newsFresh item hitem).1 (hu' ▸ stockTyped_mem_tickers hNt hu)

theorem length_le_one_of_same_pair {l : List Edge}
    (hpw : l.Pairwise (fun e1 e2 => edgeJoins e2 e1.u e1.v = false))
    (hsame : ∀ e1 ∈ l, ∀ e2 ∈ l, e1.u = e2.u ∧ e1.v = e2.v) : l.length ≤ 1 := by
  match l with
  | [] => simp
  | [a] => simp
  | a :: b :: rest =>
    exfalso
    have hab := (List.pairwise_cons.mp hpw).1 b (List.mem_cons_self _ _)
    obtain ⟨h1, h2⟩ := hsame b (List.mem_cons_of_mem _ (List.mem_cons_self _ _))
      a (List.mem_cons_self _ _)
    have : edgeJoins b a.u a.v = true := by
      rw [edgeJoins_iff]
      exact Or.inl ⟨h1, h2⟩
    exact Bool.noConfusion (this.symm.trans hab)

theorem belongsToCount_le_one_pre {hashF : String → Int} {fd : FileData} {g0 : Graph}
    (hwf : WellFormedFD hashF fd) (hmid : MidInv hashF fd g0)
    {k : Key} (hk : (g0.getNode k).type = "stock") : belongsToCount g0 k ≤ 1 := by
  obtain ⟨hE, hN, hD, hK⟩ := hmid
  have hktick : k ∈ tickersOf fd := stockTyped_mem_tickers hN hk
  unfold belongsToCount
  have hchar : ∀ e ∈ g0.edges.filter
      (fun e => (e.u == k || e.v == k) && e.relation == "belongs_to"),
      e.u = k ∧ ∃ p ∈ fd.stocks, p.1 = k ∧ e.v = secOf p.2 := by
    intro e he
    have hmem := List.mem_of_mem_filter he
    have hpred := List.of_mem_filter he
    simp only [Bool.and_eq_true, Bool.or_eq_true, beq_iff_eq] at hpred
    obtain ⟨hinc, hrel⟩ := hpred
    rcases hE e hmem with ⟨p, hp, hu, hv, hne, _⟩ | ⟨_, _, hr⟩ | ⟨_, _, hr⟩ | ⟨_, hr⟩
    · have hek : e.u = k := by
        rcases hinc with h | h
        · exact h
        · exfalso
          refine hwf.tickerNotSector k hktick ?_
          rw [show k = secOf p.2 from h.symm.trans hv]
          exact mem_sectorNamesOf hp hne
      exact ⟨hek, p, hp, hu.symm.trans hek, hv⟩
    · exact absurd (hr.symm.trans hrel) (by decide)
    · exact absurd (hr.symm.trans hrel) (by decide)
    · exact absurd (hr.symm.trans hrel) (by decide)
  refine length_le_one_of_same_pair (List.Pairwise.filter _ hD) ?_
  intro e1 h1 e2 h2
  obtain ⟨hu1, p1, hp1, hk1, hv1⟩ := hchar e1 h1
  obtain ⟨hu2, p2, hp2, hk2, hv2⟩ := hchar e2 h2
  have hpe : p1 = p2 := stocks_key_inj hwf.nodupTickers hp1 hp2 (hk1.trans hk2.symm)
  exact ⟨hu1.trans hu2.symm, by rw [hv1, hv2, hpe]⟩

/-- C1 (amended): for every entity-store snapshot whose name spaces do
not collide (no ticker doubles as a sector name or as one of the fixed
keys, no news key collides with them), `_build_knowledge_graph` produces
a graph in which every stock-typed node is incident to at most one
`belongs_to` edge, and for every sector-typed node any two distinct stock
neighbors are joined by a `peer_of_sector` edge (a complete peer
subgraph). -/
theorem build_graph_invariants (hashF : String → Int) (ner : String → List NerEntity)
    (fd : FileData) (hwf : WellFormedFD hashF fd) :
    (∀ k : Key, ((build_knowledge_graph hashF ner fd).getNode k).type = "stock" →
      belongsToCount (build_knowledge_graph hashF ner fd) k ≤ 1) ∧
    (∀ sec : Key, ((build_knowledge_graph hashF ner fd).getNode sec).type = "sector" →
      ∀ s₁ ∈ stockNeighbors (build_knowledge_graph hashF ner fd) sec,
      ∀ s₂ ∈ stockNeighbors (build_knowledge_graph hashF ner fd) sec, s₁ ≠ s₂ →
        edgeWithRel (build_knowledge_graph hashF ner fd) s₁ s₂ "peer_of_sector" = true) := by
  have hmid := @buildPrePeer_inv hashF ner fd hwf
  have hbuild : build_knowledge_graph hashF ner fd = peerPass (buildPrePeer hashF ner fd) := rfl
  obtain ⟨hnodes, added, hedges, hadd⟩ := peerPass_extends (buildPrePeer hashF ner fd)
  constructor
  · intro k hk
    rw [hbuild] at hk ⊢
    rw [Graph.getNode_congr hnodes] at hk
    have hcount : belongsToCount (peerPass (buildPrePeer hashF ner fd)) k
        = belongsToCount (buildPrePeer hashF ner fd) k := by
      unfold belongsToCount
      rw [hedges, List.filter_append]
      have hnil : added.filter
          (fun e => (e.u == k || e.v == k) && e.relation == "belongs_to") = [] := by
        rw [List.filter_eq_nil_iff]
        intro e he
        have hrel := (hadd e he).1
        simp [hrel]
      rw [hnil, List.append_nil]
    rw [hcount]
    exact belongsToCount_le_one_pre hwf hmid hk
  · intro sec hsec s₁ h1 s₂ h2 hne
    rw [hbuild] at hsec h1 h2 ⊢
    rw [Graph.getNode_congr hnodes] at hsec
    have hstab : stockNeighbors (peerPass (buildPrePeer hashF ner fd)) sec
        = stockNeighbors (buildPrePeer hashF ner fd) sec :=
      stockNeighbors_stable hsec ⟨hnodes, added, hedges, hadd⟩
    rw [hstab] at h1 h2
    have hsec_mem : sec ∈ ((buildPrePeer hashF ner fd).nodes.filter
        (fun p => p.2.type == "sector")).map (fun p => p.1) := by
      refine List.mem_map.mpr ⟨(sec, (buildPrePeer hashF ner fd).getNode sec), ?_, rfl⟩
      refine List.mem_filter.mpr ⟨Graph.getNode_mem (by rw [hsec]; decide), by simp [hsec]⟩
    have hss := noStockStock_of_mid hwf hmid
    unfold peerPass
    exact peer_fold_done hss _ _ (peerExtends_refl _) sec hsec_mem hsec s₁ h1 s₂ h2 hne

/-- Entity store in which the ticker `B` also occurs as the sector name
of stock `A`. -/
def collidingFd : FileData :=
  { stocks := [("A", { sector := some "B" }), ("B", { sector := some "C" })] }

/-- C1 counterexample: on a snapshot where one stock's sector name equals
another stock's ticker, the built graph holds a stock-typed node (`B`)
incident to two `belongs_to` edges — the claim fails for this
entity-store snapshot. -/
theorem build_graph_two_belongs_to :
    ((build_knowledge_graph (fun _ => 0) (fun _ => []) collidingFd).getNode "B").type = "stock" ∧
      belongsToCount (build_knowledge_graph (fun _ => 0) (fun _ => []) collidingFd) "B" = 2 := by
  decide

/-- Well-formed two-stock entity store for the C1 witness. -/
def wfWitnessFd : FileData :=
  { stocks := [("A", { sector := some "Energy" }), ("B", { sector := some "Energy" })]
    market_breadth := some {} }

/-- C1 witness: the amended invariants applied to a concrete well-formed
snapshot with two stocks sharing a sector. -/
theorem build_graph_invariants_witness :
    belongsToCount (build_knowledge_graph (fun _ => 0) (fun _ => []) wfWitnessFd) "A" ≤ 1 ∧
      edgeWithRel (build_knowledge_graph (fun _ => 0) (fun _ => []) wfWitnessFd)
        "A" "B" "peer_of_sector" = true := by
  have hwf : WellFormedFD (fun _ => 0) wfWitnessFd :=
    ⟨by decide, by decide, by decide, by decide, by decide⟩
  constructor
  · exact (build_graph_invariants (fun _ => 0) (fun _ => []) wfWitnessFd hwf).1 "A" (by decide)
  · exact (build_graph_invariants (fun _ => 0) (fun _ => []) wfWitnessFd hwf).2 "Energy"
      (by decide) "A" (by decide) "B" (by decide) (by decide)
